import Mathlib

/-!
Shallow embedding of the graph engine of this repository (`src/CGraph.cpp`,
class `CGraph`): distance-matrix validation and normalisation, graph
construction, lazily cached single-source shortest paths (Dijkstra), and
route reconstruction from parent pointers.

Modelling conventions:
* C++ `double` entries are modelled as rationals (`ℚ`); every value the
  claims exercise is exactly representable.
* C++ `unsigned int` is modelled as `Nat`; the one place where wrap-around
  matters is the initialiser `(unsigned int)(-1)`, made explicit as `uintMax`.
* Fallible code returns `Except CGraphError _`.  Reading a `std::vector`
  out of bounds through `operator[]` is undefined behaviour in the source;
  it is modelled by the error value `CGraphError.outOfBoundsRead`.
-/

deriving instance DecidableEq for Except

/- Batteries marks `Rat.add` irreducible, which blocks elaborator-side
evaluation of concrete rational arithmetic (`decide`); the kernel unfolds it
regardless, so restoring the default transparency changes nothing about what
is provable. -/
set_option allowUnsafeReducibility true in
attribute [semireducible] Rat.add

namespace Renispace

/-- Largest value of a C++ `unsigned int`; the initialiser `(unsigned int)(-1)`
wraps to it.  Also the bound used by `CheckInput_DistMat`'s size check. -/
def uintMax : Nat := 4294967295

/-- Result enumeration of `CGraph::CheckInput_DistMat`
(`CGraph_DistMatCheckResult` in the source). -/
inductive CGraph_DistMatCheckResult where
  | undefined
  | square
  | lowerTriangular
  | upperTriangular
  | badShape
  | tooLarge
  | invalidElements
deriving DecidableEq

/-- The exceptions `CGraph` can throw, together with two markers used by the
embedding: `outOfBoundsRead` models undefined behaviour from indexing a
`std::vector` past its end through `operator[]`, and `nonTermination` is a
fuel-exhaustion artefact of the bounded parent walk (never reached on parent
vectors actually produced by the algorithm). `unknownVertex` and
`indexOutOfRange` model the `std::out_of_range` exceptions thrown by
`m_ExternalToInternal.at` and `m_InternalToExternal.at`. -/
inductive CGraphError where
  | inputDistMat_MatrixTooLarge
  | inputDistMat_NotSquareMatrix
  | inputDistMat_InvalidElements
  | inputVertexLabels_BadSize
  | inputVertexLabels_RepeatedLabel
  | dijkstra_InvalidStartVertex
  | internalException
  | unknownVertex
  | indexOutOfRange
  | outOfBoundsRead
  | nonTermination
deriving DecidableEq

/-- Length of row `i` of a raw input matrix (`distanceMatrix[i].size()`). -/
def rowLen (m : List (List ℚ)) (i : Nat) : Nat := (m.getD i []).length

/-- Entry `(i, j)` of a raw input matrix (`distanceMatrix[i][j]`); only ever
meaningful when the indices are in range. -/
def entry (m : List (List ℚ)) (i j : Nat) : ℚ := (m.getD i []).getD j 0

/-- The row-consistency loop of `CheckInput_DistMat`: for each row index it
first checks the row size against the `unsigned int` bound (`tooLarge`), then
checks the row length against the already determined shape (`badShape`).
`none` means the loop fell through without an early return.

For `upperTriangular` the source compares against
`distanceMatrix[i-1].size() - 1` in `size_t` arithmetic; `Nat` subtraction
agrees with it on every loop state the function can reach, because a row of
size `0` can never pass the preceding iteration (a passing prefix forces
row `k` to have size `n - k ≥ 1`). -/
def checkRowsAux (m : List (List ℚ)) (shape : CGraph_DistMatCheckResult) :
    List Nat → Option CGraph_DistMatCheckResult
  | [] => none
  | i :: rest =>
    if rowLen m i > uintMax then some .tooLarge
    else if shape = .square ∧ rowLen m i ≠ m.length then some .badShape
    else if shape = .lowerTriangular ∧ 0 < i ∧ rowLen m i ≠ rowLen m (i - 1) + 1 then
      some .badShape
    else if shape = .upperTriangular ∧ 0 < i ∧ rowLen m i ≠ rowLen m (i - 1) - 1 then
      some .badShape
    else checkRowsAux m shape rest

/-- The branch of `CheckInput_DistMat` on the lengths of rows `0` and `1`,
determining the candidate shape (square first, then lower-triangular, then
upper-triangular, else bad shape). -/
def detectShape (m : List (List ℚ)) : CGraph_DistMatCheckResult :=
  if rowLen m 0 = m.length ∧ rowLen m 1 = m.length then .square
  else if rowLen m 0 = 1 ∧ rowLen m 1 = 2 then .lowerTriangular
  else if rowLen m 0 = m.length ∧ rowLen m 1 = m.length - 1 then .upperTriangular
  else .badShape

/-- The shape-classification part of `CGraph::CheckInput_DistMat`: the branch
on the lengths of rows `0` and `1`, followed by the row-consistency loop.
The source reads `distanceMatrix[0]` and `distanceMatrix[1]` unconditionally,
which is out of bounds (undefined behaviour) whenever the outer length is
`0` or `1`; that case is modelled by `none`. -/
def ClassifyShape (m : List (List ℚ)) : Option CGraph_DistMatCheckResult :=
  if m.length < 2 then none
  else if detectShape m = .badShape then some .badShape
  else
    match checkRowsAux m (detectShape m) (List.range m.length) with
    | some r => some r
    | none => some (detectShape m)

/-- The element-validity loop of `CheckInput_DistMat`: some entry is negative
yet not exactly `-1`. -/
def elemBad (m : List (List ℚ)) : Bool :=
  (List.range m.length).any fun i => (m.getD i []).any fun x => decide (x < 0 ∧ x ≠ -1)

/-- `CGraph::CheckInput_DistMat`.  First the outer-size bound, then shape
classification (both the branch on rows `0`/`1` and the row loop), then the
element check.  `none` models the undefined behaviour on matrices with fewer
than two rows. -/
def CheckInput_DistMat (m : List (List ℚ)) : Option CGraph_DistMatCheckResult :=
  if m.length > uintMax then some .tooLarge
  else
    match ClassifyShape m with
    | none => none
    | some r =>
      if r = .square ∨ r = .lowerTriangular ∨ r = .upperTriangular then
        if elemBad m then some .invalidElements else some r
      else some r

/-- The graph object: normalised square distance matrix, derived adjacency
matrix, and the two label translations (`m_InternalToExternal` is the label
list itself, `m_ExternalToInternal` the `std::map` viewed as an association
list). -/
structure CGraph where
  order : Nat
  distanceMatrix : List (List ℚ)
  adjacencyMatrix : List (List Bool)
  internalToExternal : List Nat
  externalToInternal : List (Nat × Nat)
deriving DecidableEq

/-- `m_DistanceMatrix[i][j]` (in range in every reachable use). -/
def CGraph.distAt (g : CGraph) (i j : Nat) : ℚ := (g.distanceMatrix.getD i []).getD j 0

/-- `m_AdjacencyMatrix[i][j]` (in range in every reachable use). -/
def CGraph.adjAt (g : CGraph) (i j : Nat) : Bool :=
  (g.adjacencyMatrix.getD i []).getD j false

/-- Square completion of a lower-triangular input: `M[i][j] = input[j][i]`
for `i < j`, else `input[i][j]` (constructor case `lowerTriangular`). -/
def symmetriseLower (m : List (List ℚ)) : List (List ℚ) :=
  (List.range m.length).map fun i => (List.range m.length).map fun j =>
    if i < j then entry m j i else entry m i j

/-- Square completion of an upper-triangular input: `M[i][j] = input[j][i]`
for `i > j`, else `input[i][j]` (constructor case `upperTriangular`). -/
def symmetriseUpper (m : List (List ℚ)) : List (List ℚ) :=
  (List.range m.length).map fun i => (List.range m.length).map fun j =>
    if j < i then entry m j i else entry m i j

/-- The adjacency-matrix loop of the constructor.  The source reads the RAW
input `distanceMatrix[i][j]` (not the normalised member `m_DistanceMatrix`)
for every `i, j < order`; when some input row is shorter than `order` (as it
always is for triangular input) this indexes past the row's end: undefined
behaviour, modelled by `none`. -/
def mkAdjacency (m : List (List ℚ)) (order : Nat) : Option (List (List Bool)) :=
  if (List.range order).all (fun i => decide (order ≤ rowLen m i)) then
    some ((List.range order).map fun i => (List.range order).map fun j =>
      decide (entry m i j ≥ 0 ∧ i ≠ j))
  else none

/-- Insert-or-overwrite into an association list, the lookup behaviour of
`std::map::operator[] =`. -/
def insertAssoc : List (Nat × Nat) → Nat → Nat → List (Nat × Nat)
  | [], k, v => [(k, v)]
  | (k', v') :: rest, k, v =>
    if k' = k then (k, v) :: rest else (k', v') :: insertAssoc rest k v

/-- Association-list lookup (`std::map::find` / `count` / `at`). -/
def lookupAssoc : List (Nat × Nat) → Nat → Option Nat
  | [], _ => none
  | (k, v) :: rest, x => if k = x then some v else lookupAssoc rest x

/-- The constructor loop `m_ExternalToInternal[vertexLabels[i]] = i`:
builds the external-to-internal map, later occurrences of a repeated label
overwriting earlier ones. -/
def buildExtMap (labels : List Nat) : List (Nat × Nat) :=
  (List.range labels.length).foldl (fun mp i => insertAssoc mp (labels.getD i 0) i) []

/-- The tail of the constructor shared by the three accepted shapes: the
vertex-label checks, then the adjacency matrix (built from the raw input). -/
def constructWithMatrix (m : List (List ℚ)) (labels : List Nat)
    (dMat : List (List ℚ)) : Except CGraphError CGraph :=
  if labels.length ≠ m.length then .error .inputVertexLabels_BadSize
  else
    let emap := buildExtMap labels
    if emap.length ≠ m.length then .error .inputVertexLabels_RepeatedLabel
    else
      match mkAdjacency m m.length with
      | none => .error .outOfBoundsRead
      | some adj =>
        .ok { order := m.length, distanceMatrix := dMat, adjacencyMatrix := adj,
              internalToExternal := labels, externalToInternal := emap }

/-- The constructor `CGraph::CGraph(distanceMatrix, vertexLabels)`.
On `badShape` the source throws `InputDistMat_NotSquareMatrix` (with a TODO
to rename it to a bad-shape exception). -/
def CGraph.construct (m : List (List ℚ)) (labels : List Nat) :
    Except CGraphError CGraph :=
  match CheckInput_DistMat m with
  | none => .error .outOfBoundsRead
  | some .tooLarge => .error .inputDistMat_MatrixTooLarge
  | some .badShape => .error .inputDistMat_NotSquareMatrix
  | some .invalidElements => .error .inputDistMat_InvalidElements
  | some .undefined => .error .internalException
  | some .square => constructWithMatrix m labels m
  | some .lowerTriangular => constructWithMatrix m labels (symmetriseLower m)
  | some .upperTriangular => constructWithMatrix m labels (symmetriseUpper m)

/-! ### Dijkstra: per-source state and the main loop -/

/-- The cached single-source results: `m_DijkstraOutputRoutes`,
`m_DijkstraShortestDistances` and `m_DijkstraStartVertices`.  The cache is
the one piece of state mutated after construction. -/
structure DijkstraState where
  outputRoutes : List (List Nat)
  shortestDistances : List (List ℚ)
  startVertices : List (Nat × Nat)
deriving DecidableEq

/-- The cache of a freshly constructed graph. -/
def emptyState : DijkstraState := ⟨[], [], []⟩

/-- The selection loop of `InternalDijkstra`: scan all vertices, keeping the
unconfirmed vertex with the smallest current estimate (first match wins on
ties).  The accumulator `none` corresponds to the sentinel state
`nextClosest == (unsigned)(-1) && nextShortestDistance == -1`, which the
source never leaves by selecting an estimate of `-1`. -/
def selectNextAux (known : List Bool) (dist : List ℚ) :
    List Nat → Option (Nat × ℚ) → Option (Nat × ℚ)
  | [], acc => acc
  | i :: rest, acc =>
    if (!(known.getD i true)) && (decide (dist.getD i 0 ≠ -1)) &&
        (Option.all (fun p => decide (dist.getD i 0 < p.2)) acc) then
      selectNextAux known dist rest (some (i, dist.getD i 0))
    else
      selectNextAux known dist rest acc

/-- Full selection scan over all vertex indices. -/
def selectNext (known : List Bool) (dist : List ℚ) : Option (Nat × ℚ) :=
  selectNextAux known dist (List.range known.length) none

theorem selectNextAux_some_false (known : List Bool) (dist : List ℚ) :
    ∀ (ixs : List Nat) (acc : Option (Nat × ℚ)) (c : Nat × ℚ),
      (∀ p, acc = some p → known.getD p.1 true = false) →
      selectNextAux known dist ixs acc = some c → known.getD c.1 true = false := by
  intro ixs
  induction ixs with
  | nil =>
    intro acc c hacc h
    exact hacc c h
  | cons i rest ih =>
    intro acc c hacc h
    rw [selectNextAux] at h
    by_cases hc : ((!(known.getD i true)) && (decide (dist.getD i 0 ≠ -1)) &&
        (Option.all (fun p => decide (dist.getD i 0 < p.2)) acc)) = true
    · rw [if_pos hc] at h
      refine ih (some (i, dist.getD i 0)) c ?_ h
      intro p hp
      cases hp
      simp only [Bool.and_eq_true, Bool.not_eq_true'] at hc
      exact hc.1.1
    · rw [if_neg hc] at h
      exact ih acc c hacc h

/-- The vertex selected by the scan was not yet confirmed. -/
theorem selectNext_some_false {known : List Bool} {dist : List ℚ} {c : Nat × ℚ}
    (h : selectNext known dist = some c) : known.getD c.1 true = false :=
  selectNextAux_some_false known dist (List.range known.length) none c
    (by intro p hp; cases hp) h

/-- An unconfirmed index read through `getD _ true` is in range. -/
theorem lt_length_of_getD_false {l : List Bool} {i : Nat}
    (h : l.getD i true = false) : i < l.length := by
  by_contra hge
  rw [List.getD_eq_default] at h
  · simp at h
  · omega

/-- Confirming one more vertex strictly decreases the number of unconfirmed
vertices. -/
theorem count_false_set_true :
    ∀ (l : List Bool) (c : Nat), l.getD c true = false →
      (l.set c true).count false < l.count false := by
  intro l
  induction l with
  | nil =>
    intro c h
    simp [List.getD] at h
  | cons a t ih =>
    intro c h
    cases c with
    | zero =>
      simp only [List.getD_cons_zero] at h
      subst h
      simp [List.count_cons]
    | succ c' =>
      simp only [List.getD_cons_succ] at h
      have := ih c' h
      show List.count false (a :: t.set c' true) < List.count false (a :: t)
      simp only [List.count_cons]
      omega

/-- The relaxation condition of the update loop: `i` unconfirmed, adjacent to
the newly confirmed vertex `c`, and either without an estimate or improvable
through `c`. -/
def relaxCond (g : CGraph) (c i : Nat) (known : List Bool) (dist : List ℚ) : Prop :=
  known.getD i true = false ∧ g.adjAt c i = true ∧
    (dist.getD i 0 = -1 ∨ dist.getD i 0 > dist.getD c 0 + g.distAt c i)

instance (g : CGraph) (c i : Nat) (known : List Bool) (dist : List ℚ) :
    Decidable (relaxCond g c i known dist) :=
  inferInstanceAs (Decidable (known.getD i true = false ∧ g.adjAt c i = true ∧
    (dist.getD i 0 = -1 ∨ dist.getD i 0 > dist.getD c 0 + g.distAt c i)))

/-- The update loop's effect on the estimate vector. -/
def relaxDist (g : CGraph) (c : Nat) (known : List Bool) (dist : List ℚ) : List ℚ :=
  (List.range g.order).map fun i =>
    if relaxCond g c i known dist then dist.getD c 0 + g.distAt c i else dist.getD i 0

/-- The update loop's effect on the parent vector. -/
def relaxPar (g : CGraph) (c : Nat) (known : List Bool) (dist : List ℚ)
    (par : List Nat) : List Nat :=
  (List.range g.order).map fun i =>
    if relaxCond g c i known dist then c else par.getD i 0

/-- The end-of-iteration check: is there still an unconfirmed vertex with a
known estimate? -/
def moreVertices (order : Nat) (known : List Bool) (dist : List ℚ) : Bool :=
  (List.range order).any fun i =>
    (!(known.getD i true)) && (decide (dist.getD i 0 ≠ -1))

/-- The main `while (moreVertices)` loop of `InternalDijkstra`.  The body runs
unconditionally on entry (the source initialises `moreVertices = true`).  When
the scan selects nothing, `nextClosest` keeps the value `(unsigned)(-1)` and
the source then indexes `m_AdjacencyMatrix[nextClosest]` (or writes
`knownDistances[nextClosest]`) out of bounds: undefined behaviour, modelled by
`outOfBoundsRead`.  This happens exactly when the start vertex has no
neighbour, and only on the first iteration, because every later iteration is
guarded by the previous `moreVertices` check.

The `fuel` argument is the structural-recursion bound for the `while` loop;
each iteration confirms one previously unconfirmed vertex, so any fuel of at
least `known.count false` makes the `nonTermination` branch unreachable
(`dijkstraLoop_no_fuel_exhaustion` below), and the loop's value is then
independent of the fuel. -/
def dijkstraLoop (g : CGraph) :
    Nat → List ℚ → List Nat → List Bool → Except CGraphError (List ℚ × List Nat)
  | fuel, dist, par, known =>
    match selectNext known dist with
    | none => .error .outOfBoundsRead
    | some c =>
      match moreVertices g.order (known.set c.1 true) (relaxDist g c.1 known dist) with
      | true =>
        match fuel with
        | 0 => .error .nonTermination
        | f + 1 =>
          dijkstraLoop g f (relaxDist g c.1 known dist)
            (relaxPar g c.1 known dist par) (known.set c.1 true)
      | false => .ok (relaxDist g c.1 known dist, relaxPar g c.1 known dist par)

theorem dijkstraLoop_step_none {g : CGraph} {fuel : Nat} {dist : List ℚ}
    {par : List Nat} {known : List Bool}
    (hs : selectNext known dist = none) :
    dijkstraLoop g fuel dist par known = .error .outOfBoundsRead := by
  rw [dijkstraLoop, hs]

theorem dijkstraLoop_step_some {g : CGraph} {fuel : Nat} {dist : List ℚ}
    {par : List Nat} {known : List Bool} {c : Nat × ℚ}
    (hs : selectNext known dist = some c) :
    dijkstraLoop g fuel dist par known =
      match moreVertices g.order (known.set c.1 true) (relaxDist g c.1 known dist) with
      | true =>
        match fuel with
        | 0 => .error .nonTermination
        | f + 1 =>
          dijkstraLoop g f (relaxDist g c.1 known dist)
            (relaxPar g c.1 known dist par) (known.set c.1 true)
      | false => .ok (relaxDist g c.1 known dist, relaxPar g c.1 known dist par) := by
  rw [dijkstraLoop, hs]

/-- Initial estimates: the diagonal entry for the start vertex itself and the
direct edge weight for each neighbour; `-1` (no estimate) elsewhere. -/
def dijkstraInitDist (g : CGraph) (s : Nat) : List ℚ :=
  (List.range g.order).map fun i =>
    if i = s ∨ g.adjAt s i = true then g.distAt s i else -1

/-- Initial parent pointers: `s` for the start vertex and its neighbours,
the wrapped sentinel `(unsigned)(-1)` elsewhere. -/
def dijkstraInitPar (g : CGraph) (s : Nat) : List Nat :=
  (List.range g.order).map fun i =>
    if i = s ∨ g.adjAt s i = true then s else uintMax

/-- Initially only the start vertex is confirmed. -/
def dijkstraInitKnown (g : CGraph) (s : Nat) : List Bool :=
  (List.range g.order).map fun i => decide (i = s)

/-- `CGraph::InternalDijkstra`: validity check on the start vertex, cache
lookup, and on a miss one full run of the loop followed by appending the
results and recording the slot index. -/
def InternalDijkstra (g : CGraph) (st : DijkstraState) (s : Nat) :
    Except CGraphError (Nat × DijkstraState) :=
  if g.order ≤ s then .error .dijkstra_InvalidStartVertex
  else
    match lookupAssoc st.startVertices s with
    | some idx => .ok (idx, st)
    | none =>
      match dijkstraLoop g ((dijkstraInitKnown g s).count false)
          (dijkstraInitDist g s) (dijkstraInitPar g s) (dijkstraInitKnown g s) with
      | .error e => .error e
      | .ok (dist, par) =>
        let idx := st.outputRoutes.length
        .ok (idx,
          { outputRoutes := st.outputRoutes ++ [par],
            shortestDistances := st.shortestDistances ++ [dist],
            startVertices := insertAssoc st.startVertices s idx })

/-! ### Route reconstruction and the public query -/

/-- The parent walk `while (route.back() != target) route.push_back(par[route.back()])`.
The source walks parent pointers with no check for the "no parent" sentinel;
when the current vertex is the wrapped sentinel `(unsigned)(-1)` (or anything
out of range) the access `par[cur]` is past the end of the parent vector:
undefined behaviour, modelled by `outOfBoundsRead`.  The fuel bound is a
modelling artefact: parent vectors produced by the algorithm reach the root in
at most `par.length` steps, so the fuel case is never hit for them. -/
def parentWalk (par : List Nat) (target : Nat) :
    Nat → Nat → List Nat → Except CGraphError (List Nat)
  | fuel, cur, acc =>
    if cur = target then .ok acc
    else
      match par.get? cur with
      | none => .error .outOfBoundsRead
      | some p =>
        match fuel with
        | 0 => .error .nonTermination
        | f + 1 => parentWalk par target f p (acc ++ [p])

/-- The first half of `InternalShortestDistance`: decide whether to unwind
from the start vertex or the end vertex, running `InternalDijkstra` if neither
endpoint has a cached tree (rooted at the start when `preferStartVertex`,
else at the end). -/
def rootSelect (g : CGraph) (st : DijkstraState) (s e : Nat) (pref : Bool) :
    Except CGraphError (Bool × DijkstraState) :=
  if (lookupAssoc st.startVertices e).isSome then .ok (false, st)
  else if (lookupAssoc st.startVertices s).isSome then .ok (true, st)
  else if pref then
    match InternalDijkstra g st s with
    | .error err => .error err
    | .ok p => .ok (true, p.2)
  else
    match InternalDijkstra g st e with
    | .error err => .error err
    | .ok p => .ok (false, p.2)

/-- The second half of `InternalShortestDistance`: unwind the route through
the parent vector of the rooted endpoint's slot and read the distance.
When unwinding from the start vertex's tree the walk runs end-to-start and is
then reversed.  The slot lookup `m_DijkstraStartVertices[startVertex]` always
finds its key here (the first half guarantees it); the source's
`std::map::operator[]` would otherwise insert a default, which is modelled as
an internal error since it cannot be reached. -/
def walkPhase (g : CGraph) (st : DijkstraState) (fromStart : Bool) (s e : Nat) :
    Except CGraphError (ℚ × List Nat) :=
  if fromStart then
    match lookupAssoc st.startVertices s with
    | none => .error .internalException
    | some idx =>
      match st.outputRoutes.get? idx with
      | none => .error .outOfBoundsRead
      | some parVec =>
        match parentWalk parVec s (g.order + 1) e [e] with
        | .error err => .error err
        | .ok revRoute =>
          match (st.shortestDistances.getD idx []).get? e with
          | none => .error .outOfBoundsRead
          | some d => .ok (d, revRoute.reverse)
  else
    match lookupAssoc st.startVertices e with
    | none => .error .internalException
    | some idx =>
      match st.outputRoutes.get? idx with
      | none => .error .outOfBoundsRead
      | some parVec =>
        match parentWalk parVec e (g.order + 1) s [s] with
        | .error err => .error err
        | .ok route =>
          match (st.shortestDistances.getD idx []).get? s with
          | none => .error .outOfBoundsRead
          | some d => .ok (d, route)

/-- `CGraph::InternalShortestDistance` (internal vertex numbering). -/
def InternalShortestDistance (g : CGraph) (st : DijkstraState) (s e : Nat)
    (pref : Bool) : Except CGraphError (ℚ × List Nat × DijkstraState) :=
  match rootSelect g st s e pref with
  | .error err => .error err
  | .ok (fromStart, st2) =>
    match walkPhase g st2 fromStart s e with
    | .error err => .error err
    | .ok (d, route) => .ok (d, route, st2)

/-- `CGraph::ExternalToInternal` (single vertex): `m_ExternalToInternal.at`. -/
def ExternalToInternal (g : CGraph) (v : Nat) : Option Nat :=
  lookupAssoc g.externalToInternal v

/-- `CGraph::InternalToExternal` (vector overload): translate a route back to
external labels through `m_InternalToExternal.at`. -/
def routeToExternal (g : CGraph) (route : List Nat) : Option (List Nat) :=
  route.mapM fun v => g.internalToExternal.get? v

/-- `CGraph::ShortestDistance` (public, external vertex numbering).  Returns
the shortest distance, the route in external labels ordered start to end, and
the cache state after the query. -/
def ShortestDistance (g : CGraph) (st : DijkstraState) (startV endV : Nat)
    (pref : Bool) : Except CGraphError (ℚ × List Nat × DijkstraState) :=
  match ExternalToInternal g startV with
  | none => .error .unknownVertex
  | some iS =>
    match ExternalToInternal g endV with
    | none => .error .unknownVertex
    | some iE =>
      match InternalShortestDistance g st iS iE pref with
      | .error err => .error err
      | .ok (d, route, st2) =>
        match routeToExternal g route with
        | none => .error .indexOutOfRange
        | some extRoute => .ok (d, extRoute, st2)

/-- The two-argument overload of `ShortestDistance`, which defaults
`preferStartVertex` to `false`. -/
def ShortestDistanceDefault (g : CGraph) (st : DijkstraState)
    (startV endV : Nat) : Except CGraphError (ℚ × List Nat × DijkstraState) :=
  ShortestDistance g st startV endV false

/-- Distance and route of a query, with the threaded cache state dropped. -/
def queryDistRoute (g : CGraph) (st : DijkstraState) (a b : Nat) :
    Option (ℚ × List Nat) :=
  (ShortestDistanceDefault g st a b).toOption.map fun p => (p.1, p.2.1)

/-! ### Concrete instances used by the claims -/

/-- A placeholder graph used only as the default of `Option.getD`. -/
def graphDefault : CGraph := ⟨0, [], [], [], []⟩

/-- The spec's concrete scenario matrix: the path graph 10-20-30-40. -/
def matPath4 : List (List ℚ) := [[0,1,-1,-1],[1,0,2,-1],[-1,2,0,3],[-1,-1,3,0]]

/-- The spec's concrete scenario labels. -/
def labels4 : List Nat := [10, 20, 30, 40]

/-- The graph of the spec's concrete scenario. -/
def graphPath4 : CGraph := ((CGraph.construct matPath4 labels4).toOption).getD graphDefault

/-- A disconnected square matrix: components {10,20} and {30,40}. -/
def matDisc4 : List (List ℚ) := [[0,1,-1,-1],[1,0,-1,-1],[-1,-1,0,3],[-1,-1,3,0]]

/-- The disconnected graph. -/
def graphDisc4 : CGraph := ((CGraph.construct matDisc4 labels4).toOption).getD graphDefault

/-- A valid square matrix with non-negative entries but non-zero diagonal. -/
def matDiag7 : List (List ℚ) := [[7,1],[1,7]]

/-- The graph with diagonal weight 7. -/
def graphDiag7 : CGraph :=
  ((CGraph.construct matDiag7 [10, 20]).toOption).getD graphDefault

/-! ### Claim theorems: concrete scenarios -/

/-- Claim C1: on the 4-vertex path graph with labels {10,20,30,40} and the
square matrix [[0,1,-1,-1],[1,0,2,-1],[-1,2,0,3],[-1,-1,3,0]], the query
ShortestDistance(10,40) returns distance 6 with route [10,20,30,40], and
ShortestDistance(10,10) returns distance 0 with route [10]. -/
theorem claim_C1 :
    CGraph.construct matPath4 labels4 = .ok graphPath4 ∧
    queryDistRoute graphPath4 emptyState 10 40 = some (6, [10, 20, 30, 40]) ∧
    queryDistRoute graphPath4 emptyState 10 10 = some (0, [10]) := by
  refine ⟨by decide, by decide, by decide⟩

/-- Claim C3 (code bug): querying two registered labels with no connecting
path does not fail with a tagged Unreachable error; the parent walk pushes the
"no parent" sentinel `(unsigned)(-1)` and then indexes the parent vector out
of bounds — undefined behaviour, modelled as `outOfBoundsRead`.  The graph
construction itself succeeds. -/
theorem claim_C3 :
    CGraph.construct matDisc4 labels4 = .ok graphDisc4 ∧
    ShortestDistanceDefault graphDisc4 emptyState 10 30 =
      .error .outOfBoundsRead := by
  refine ⟨by decide, by decide⟩

/-- Claim C4, counterexample: the matrix [[7,1],[1,7]] is a valid square
matrix with non-negative entries and bijective labeling {10,20}, yet
ShortestDistance(10,10) returns distance 7 (the diagonal entry), not 0. -/
theorem claim_C4_counterexample :
    queryDistRoute graphDiag7 emptyState 10 10 = some (7, [10]) ∧ (7 : ℚ) ≠ 0 := by
  refine ⟨by decide, by decide⟩

/-- Claim C9 (code bug): construction from a lower- or upper-triangular input
never succeeds, because the adjacency loop reads the raw triangular input (not
the symmetrised member matrix) at every index pair `(i,j)` with
`i, j < order`, indexing past the end of a short row — undefined behaviour,
modelled as `outOfBoundsRead`.  So a triangular graph cannot answer any query,
while the spec requires it to answer like the symmetrised square graph. -/
theorem claim_C9 :
    CGraph.construct [[0], [1, 0]] [10, 20] = .error .outOfBoundsRead ∧
    CGraph.construct [[0, 1], [0]] [10, 20] = .error .outOfBoundsRead := by
  refine ⟨by decide, by decide⟩

/-! ### Claims about input validation (C10, C7) -/

/-- Claim C10: for every input distance matrix with fewer than two rows the
shape-classification step reads input rows 0 and 1 unconditionally
(out of bounds, modelled by `none`), so construction never reaches any
documented success or failure classification; in particular a well-formed
1×1 square matrix is not accepted. -/
theorem claim_C10 (m : List (List ℚ)) (labels : List Nat) (h : m.length < 2) :
    CheckInput_DistMat m = none ∧
    CGraph.construct m labels = .error .outOfBoundsRead := by
  have h1 : ¬ (m.length > uintMax) := by
    unfold uintMax
    omega
  have hcs : ClassifyShape m = none := by
    unfold ClassifyShape
    rw [if_pos h]
  have hci : CheckInput_DistMat m = none := by
    unfold CheckInput_DistMat
    rw [if_neg h1, hcs]
  refine ⟨hci, ?_⟩
  unfold CGraph.construct
  rw [hci]

/-- Claim C10, witness: the 1×1 square matrix `[[0]]` with label list `[10]`
is rejected by the undefined-behaviour path. -/
theorem claim_C10_witness :
    ([[(0 : ℚ)]] : List (List ℚ)).length < 2 ∧
    (CheckInput_DistMat [[(0 : ℚ)]] = none ∧
      CGraph.construct [[(0 : ℚ)]] [10] = .error .outOfBoundsRead) :=
  ⟨by decide, claim_C10 [[(0 : ℚ)]] [10] (by decide)⟩

/-- Per-row consistency demanded by the loop of `CheckInput_DistMat` for a
given candidate shape. -/
def shapeRowOk (m : List (List ℚ)) (shape : CGraph_DistMatCheckResult) (i : Nat) : Prop :=
  (shape = .square → rowLen m i = m.length) ∧
  (shape = .lowerTriangular → 0 < i → rowLen m i = rowLen m (i - 1) + 1) ∧
  (shape = .upperTriangular → 0 < i → rowLen m i = rowLen m (i - 1) - 1)

theorem shapeRowOk_of (m : List (List ℚ)) (shape : CGraph_DistMatCheckResult) (i : Nat)
    (h1 : shape = .square → rowLen m i = m.length)
    (h2 : shape = .lowerTriangular → 0 < i → rowLen m i = rowLen m (i - 1) + 1)
    (h3 : shape = .upperTriangular → 0 < i → rowLen m i = rowLen m (i - 1) - 1) :
    shapeRowOk m shape i := ⟨h1, h2, h3⟩

theorem checkRowsAux_none_iff (m : List (List ℚ)) (shape : CGraph_DistMatCheckResult) :
    ∀ ixs : List Nat, checkRowsAux m shape ixs = none ↔
      ∀ i ∈ ixs, rowLen m i ≤ uintMax ∧ shapeRowOk m shape i := by
  intro ixs
  induction ixs with
  | nil => simp [checkRowsAux]
  | cons i rest ih =>
    simp only [checkRowsAux, List.mem_cons, forall_eq_or_imp]
    split_ifs with h1 h2 h3 h4
    · constructor
      · intro h
        exact absurd h (by simp)
      · intro h
        exact absurd h.1.1 (by omega)
    · constructor
      · intro h
        exact absurd h (by simp)
      · intro h
        exact absurd (h.1.2.1 h2.1) h2.2
    · constructor
      · intro h
        exact absurd h (by simp)
      · intro h
        exact absurd (h.1.2.2.1 h3.1 h3.2.1) h3.2.2
    · constructor
      · intro h
        exact absurd h (by simp)
      · intro h
        exact absurd (h.1.2.2.2 h4.1 h4.2.1) h4.2.2
    · rw [ih]
      constructor
      · intro h
        refine ⟨⟨by omega, ?_, ?_, ?_⟩, h⟩
        · intro hs
          by_contra hne
          exact h2 ⟨hs, hne⟩
        · intro hs hi
          by_contra hne
          exact h3 ⟨hs, hi, hne⟩
        · intro hs hi
          by_contra hne
          exact h4 ⟨hs, hi, hne⟩
      · intro h
        exact h.2

theorem checkRowsAux_small (m : List (List ℚ)) (shape : CGraph_DistMatCheckResult) :
    ∀ ixs : List Nat, (∀ i ∈ ixs, rowLen m i ≤ uintMax) →
      checkRowsAux m shape ixs = none ∨ checkRowsAux m shape ixs = some .badShape := by
  intro ixs
  induction ixs with
  | nil => intro _; exact Or.inl rfl
  | cons i rest ih =>
    intro h
    simp only [checkRowsAux]
    split_ifs with h1 h2 h3 h4
    · exact absurd (h i (by simp)) (by omega)
    · exact Or.inr rfl
    · exact Or.inr rfl
    · exact Or.inr rfl
    · exact ih fun j hj => h j (List.mem_cons_of_mem i hj)

theorem detectShape_cases (m : List (List ℚ)) :
    detectShape m = .square ∨ detectShape m = .lowerTriangular ∨
    detectShape m = .upperTriangular ∨ detectShape m = .badShape := by
  unfold detectShape
  split_ifs <;> simp

theorem detectShape_eq_lower {m : List (List ℚ)}
    (h : detectShape m = .lowerTriangular) : rowLen m 0 = 1 ∧ rowLen m 1 = 2 := by
  unfold detectShape at h
  by_cases hA : rowLen m 0 = m.length ∧ rowLen m 1 = m.length
  · rw [if_pos hA] at h
    cases h
  · rw [if_neg hA] at h
    by_cases hB : rowLen m 0 = 1 ∧ rowLen m 1 = 2
    · exact hB
    · rw [if_neg hB] at h
      by_cases hC : rowLen m 0 = m.length ∧ rowLen m 1 = m.length - 1
      · rw [if_pos hC] at h
        cases h
      · rw [if_neg hC] at h
        cases h

theorem detectShape_eq_upper {m : List (List ℚ)}
    (h : detectShape m = .upperTriangular) :
    rowLen m 0 = m.length ∧ rowLen m 1 = m.length - 1 := by
  unfold detectShape at h
  by_cases hA : rowLen m 0 = m.length ∧ rowLen m 1 = m.length
  · rw [if_pos hA] at h
    cases h
  · rw [if_neg hA] at h
    by_cases hB : rowLen m 0 = 1 ∧ rowLen m 1 = 2
    · rw [if_pos hB] at h
      cases h
    · rw [if_neg hB] at h
      by_cases hC : rowLen m 0 = m.length ∧ rowLen m 1 = m.length - 1
      · exact hC
      · rw [if_neg hC] at h
        cases h

/-- For lower-triangular consistency, the loop conditions force row `i` to
have length `i + 1`, and conversely. -/
theorem lower_rows_iff (m : List (List ℚ)) (h0 : rowLen m 0 = 1)
    (hstep : ∀ i < m.length, 0 < i → rowLen m i = rowLen m (i - 1) + 1) :
    ∀ i < m.length, rowLen m i = i + 1 := by
  intro i
  induction i with
  | zero => intro _; simpa using h0
  | succ k ih =>
    intro hk
    have hkm : k < m.length := by omega
    have := hstep (k + 1) hk (by omega)
    simp only [Nat.add_sub_cancel] at this
    rw [this, ih hkm]

/-- For upper-triangular consistency, the loop conditions force row `i` to
have length `n - i`, and conversely.  (The source's `size_t` subtraction and
`Nat` subtraction agree on every reachable loop state, see `checkRowsAux`.) -/
theorem upper_rows_iff (m : List (List ℚ)) (h0 : rowLen m 0 = m.length)
    (hstep : ∀ i < m.length, 0 < i → rowLen m i = rowLen m (i - 1) - 1) :
    ∀ i < m.length, rowLen m i = m.length - i := by
  intro i
  induction i with
  | zero => intro _; simpa using h0
  | succ k ih =>
    intro hk
    have hkm : k < m.length := by omega
    have := hstep (k + 1) hk (by omega)
    simp only [Nat.add_sub_cancel] at this
    rw [this, ih hkm]
    omega

/-- Claim C7 (amended): for an input matrix of outer length `n` with
`2 ≤ n ≤ 2^32 - 1` and all row lengths within the `unsigned int` bound,
shape classification accepts the matrix as square exactly when every row has
length `n`, as lower-triangular exactly when row `i` has length `i + 1`, as
upper-triangular exactly when row `i` has length `n - i`, and yields the
bad-shape result otherwise, on which construction fails with the (misnamed)
bad-shape exception `InputDistMat_NotSquareMatrix`. -/
theorem claim_C7 (m : List (List ℚ)) (hn2 : 2 ≤ m.length)
    (hnmax : m.length ≤ uintMax)
    (hrows : ∀ i < m.length, rowLen m i ≤ uintMax) :
    (ClassifyShape m = some .square ↔ ∀ i < m.length, rowLen m i = m.length) ∧
    (ClassifyShape m = some .lowerTriangular ↔ ∀ i < m.length, rowLen m i = i + 1) ∧
    (ClassifyShape m = some .upperTriangular ↔
      ∀ i < m.length, rowLen m i = m.length - i) ∧
    (ClassifyShape m = some .badShape ↔
      (¬ ∀ i < m.length, rowLen m i = m.length) ∧
      (¬ ∀ i < m.length, rowLen m i = i + 1) ∧
      (¬ ∀ i < m.length, rowLen m i = m.length - i)) ∧
    (ClassifyShape m = some .badShape →
      ∀ labels, CGraph.construct m labels = .error .inputDistMat_NotSquareMatrix) := by
  have hrows' : ∀ i ∈ List.range m.length, rowLen m i ≤ uintMax := by
    intro i hi
    exact hrows i (List.mem_range.mp hi)
  have hn : ¬ (m.length < 2) := by omega
  -- How the classifier evaluates, by cases on the detected shape and the loop.
  have key : ∀ sh : CGraph_DistMatCheckResult, detectShape m = sh →
      sh ≠ .badShape →
      (ClassifyShape m = some sh ∨ ClassifyShape m = some .badShape) ∧
      (ClassifyShape m = some sh ↔
        ∀ i < m.length, rowLen m i ≤ uintMax ∧ shapeRowOk m sh i) := by
    intro sh hdet hne
    have hcs : ClassifyShape m =
        (match checkRowsAux m sh (List.range m.length) with
          | some r => some r
          | none => some sh) := by
      unfold ClassifyShape
      rw [if_neg hn, hdet, if_neg hne]
    rcases checkRowsAux_small m sh (List.range m.length) hrows' with hloop | hloop
    · rw [hloop] at hcs
      have hforall := (checkRowsAux_none_iff m sh (List.range m.length)).mp hloop
      refine ⟨Or.inl hcs, ?_⟩
      constructor
      · intro _ i hi
        exact hforall i (List.mem_range.mpr hi)
      · intro _
        exact hcs
    · rw [hloop] at hcs
      refine ⟨Or.inr hcs, ?_⟩
      constructor
      · intro h
        rw [hcs] at h
        cases h
        exact absurd rfl hne
      · intro hall
        have : checkRowsAux m sh (List.range m.length) = none := by
          rw [checkRowsAux_none_iff]
          intro i hi
          exact hall i (List.mem_range.mp hi)
        rw [this] at hloop
        cases hloop
  -- The three positive characterisations.
  have hsq : ClassifyShape m = some .square ↔ ∀ i < m.length, rowLen m i = m.length := by
    constructor
    · intro h
      rcases detectShape_cases m with hd | hd | hd | hd
      · have := ((key _ hd (by simp)).2).mp h
        intro i hi
        exact (this i hi).2.1 rfl
      · rcases (key _ hd (by simp)).1 with h' | h' <;> rw [h] at h' <;> cases h'
      · rcases (key _ hd (by simp)).1 with h' | h' <;> rw [h] at h' <;> cases h'
      · have hbs : ClassifyShape m = some .badShape := by
          unfold ClassifyShape
          rw [if_neg hn, hd]
          rfl
        rw [h] at hbs
        cases hbs
    · intro hall
      have h0 : rowLen m 0 = m.length := hall 0 (by omega)
      have h1 : rowLen m 1 = m.length := hall 1 (by omega)
      have hdet : detectShape m = .square := by
        unfold detectShape
        rw [if_pos ⟨h0, h1⟩]
      rw [(key _ hdet (by simp)).2]
      intro i hi
      refine ⟨by rw [hall i hi]; exact hnmax, ?_⟩
      exact shapeRowOk_of m _ i (fun _ => hall i hi)
        (fun hs => absurd hs (by decide)) (fun hs => absurd hs (by decide))
  have hlow : ClassifyShape m = some .lowerTriangular ↔
      ∀ i < m.length, rowLen m i = i + 1 := by
    constructor
    · intro h
      rcases detectShape_cases m with hd | hd | hd | hd
      · rcases (key _ hd (by simp)).1 with h' | h' <;> rw [h] at h' <;> cases h'
      · have hcond := ((key _ hd (by simp)).2).mp h
        have h0 : rowLen m 0 = 1 := (detectShape_eq_lower hd).1
        exact lower_rows_iff m h0 (fun i hi hpos => ((hcond i hi).2.2.1 rfl hpos))
      · rcases (key _ hd (by simp)).1 with h' | h' <;> rw [h] at h' <;> cases h'
      · have hbs : ClassifyShape m = some .badShape := by
          unfold ClassifyShape
          rw [if_neg hn, hd]
          rfl
        rw [h] at hbs
        cases hbs
    · intro hall
      have h0 : rowLen m 0 = 1 := by simpa using hall 0 (by omega)
      have h1 : rowLen m 1 = 2 := by simpa using hall 1 (by omega)
      have hdet : detectShape m = .lowerTriangular := by
        unfold detectShape
        rw [if_neg, if_pos ⟨h0, h1⟩]
        intro hA
        omega
      rw [(key _ hdet (by simp)).2]
      intro i hi
      refine ⟨by rw [hall i hi]; omega, ?_⟩
      refine shapeRowOk_of m _ i (fun hs => absurd hs (by decide))
        (fun _ hpos => ?_) (fun hs => absurd hs (by decide))
      rw [hall i hi, hall (i - 1) (by omega)]
      omega
  have hup : ClassifyShape m = some .upperTriangular ↔
      ∀ i < m.length, rowLen m i = m.length - i := by
    constructor
    · intro h
      rcases detectShape_cases m with hd | hd | hd | hd
      · rcases (key _ hd (by simp)).1 with h' | h' <;> rw [h] at h' <;> cases h'
      · rcases (key _ hd (by simp)).1 with h' | h' <;> rw [h] at h' <;> cases h'
      · have hcond := ((key _ hd (by simp)).2).mp h
        have h0 : rowLen m 0 = m.length := (detectShape_eq_upper hd).1
        exact upper_rows_iff m h0 (fun i hi hpos => ((hcond i hi).2.2.2 rfl hpos))
      · have hbs : ClassifyShape m = some .badShape := by
          unfold ClassifyShape
          rw [if_neg hn, hd]
          rfl
        rw [h] at hbs
        cases hbs
    · intro hall
      have h0 : rowLen m 0 = m.length := by simpa using hall 0 (by omega)
      have h1 : rowLen m 1 = m.length - 1 := by simpa using hall 1 (by omega)
      have hdet : detectShape m = .upperTriangular := by
        unfold detectShape
        rw [if_neg, if_neg, if_pos ⟨h0, h1⟩]
        · intro hB
          omega
        · intro hA
          omega
      rw [(key _ hdet (by simp)).2]
      intro i hi
      refine ⟨by rw [hall i hi]; omega, ?_⟩
      refine shapeRowOk_of m _ i (fun hs => absurd hs (by decide))
        (fun hs => absurd hs (by decide)) (fun _ hpos => ?_)
      rw [hall i hi, hall (i - 1) (by omega)]
      omega
  have hbad : ClassifyShape m = some .badShape ↔
      (¬ ∀ i < m.length, rowLen m i = m.length) ∧
      (¬ ∀ i < m.length, rowLen m i = i + 1) ∧
      (¬ ∀ i < m.length, rowLen m i = m.length - i) := by
    constructor
    · intro h
      refine ⟨?_, ?_, ?_⟩
      · intro hall
        have := hsq.mpr hall
        rw [h] at this
        cases this
      · intro hall
        have := hlow.mpr hall
        rw [h] at this
        cases this
      · intro hall
        have := hup.mpr hall
        rw [h] at this
        cases this
    · rintro ⟨ha, hb, hc⟩
      rcases detectShape_cases m with hd | hd | hd | hd
      · rcases (key _ hd (by simp)).1 with h' | h'
        · exact absurd (hsq.mp h') ha
        · exact h'
      · rcases (key _ hd (by simp)).1 with h' | h'
        · exact absurd (hlow.mp h') hb
        · exact h'
      · rcases (key _ hd (by simp)).1 with h' | h'
        · exact absurd (hup.mp h') hc
        · exact h'
      · unfold ClassifyShape
        rw [if_neg hn, hd]
        rfl
  refine ⟨hsq, hlow, hup, hbad, ?_⟩
  intro h labels
  have hci : CheckInput_DistMat m = some .badShape := by
    unfold CheckInput_DistMat
    rw [if_neg (by omega), h]
    rfl
  unfold CGraph.construct
  rw [hci]

/-- Claim C7, counterexample to the claim as stated: the 1×1 matrix `[[0]]`
has every row of length equal to its outer length, yet shape classification
does not accept it as square (rows 0 and 1 are read out of bounds first). -/
theorem claim_C7_counterexample :
    (∀ i < ([[(0 : ℚ)]] : List (List ℚ)).length,
      rowLen [[(0 : ℚ)]] i = ([[(0 : ℚ)]] : List (List ℚ)).length) ∧
    ClassifyShape [[(0 : ℚ)]] ≠ some .square := by
  refine ⟨by decide, by decide⟩

/-- Claim C7, witness at the spec's malformed scenario: rows of lengths
`[1, 2, 4]` with `n = 3`. -/
theorem claim_C7_witness :
    2 ≤ ([[0], [0, 0], [0, 0, 0, 0]] : List (List ℚ)).length ∧
    ([[0], [0, 0], [0, 0, 0, 0]] : List (List ℚ)).length ≤ uintMax ∧
    (∀ i < ([[0], [0, 0], [0, 0, 0, 0]] : List (List ℚ)).length,
      rowLen [[0], [0, 0], [0, 0, 0, 0]] i ≤ uintMax) ∧
    ((ClassifyShape [[0], [0, 0], [0, 0, 0, 0]] = some .square ↔
      ∀ i < ([[0], [0, 0], [0, 0, 0, 0]] : List (List ℚ)).length,
        rowLen [[0], [0, 0], [0, 0, 0, 0]] i =
          ([[0], [0, 0], [0, 0, 0, 0]] : List (List ℚ)).length) ∧
    (ClassifyShape [[0], [0, 0], [0, 0, 0, 0]] = some .lowerTriangular ↔
      ∀ i < ([[0], [0, 0], [0, 0, 0, 0]] : List (List ℚ)).length,
        rowLen [[0], [0, 0], [0, 0, 0, 0]] i = i + 1) ∧
    (ClassifyShape [[0], [0, 0], [0, 0, 0, 0]] = some .upperTriangular ↔
      ∀ i < ([[0], [0, 0], [0, 0, 0, 0]] : List (List ℚ)).length,
        rowLen [[0], [0, 0], [0, 0, 0, 0]] i =
          ([[0], [0, 0], [0, 0, 0, 0]] : List (List ℚ)).length - i) ∧
    (ClassifyShape [[0], [0, 0], [0, 0, 0, 0]] = some .badShape ↔
      (¬ ∀ i < ([[0], [0, 0], [0, 0, 0, 0]] : List (List ℚ)).length,
        rowLen [[0], [0, 0], [0, 0, 0, 0]] i =
          ([[0], [0, 0], [0, 0, 0, 0]] : List (List ℚ)).length) ∧
      (¬ ∀ i < ([[0], [0, 0], [0, 0, 0, 0]] : List (List ℚ)).length,
        rowLen [[0], [0, 0], [0, 0, 0, 0]] i = i + 1) ∧
      (¬ ∀ i < ([[0], [0, 0], [0, 0, 0, 0]] : List (List ℚ)).length,
        rowLen [[0], [0, 0], [0, 0, 0, 0]] i =
          ([[0], [0, 0], [0, 0, 0, 0]] : List (List ℚ)).length - i)) ∧
    (ClassifyShape [[0], [0, 0], [0, 0, 0, 0]] = some .badShape →
      ∀ labels, CGraph.construct [[0], [0, 0], [0, 0, 0, 0]] labels =
        .error .inputDistMat_NotSquareMatrix)) :=
  ⟨by decide, by decide, by decide,
    claim_C7 [[0], [0, 0], [0, 0, 0, 0]] (by decide) (by decide) (by decide)⟩

/-! ### Construction inversion and the adjacency invariant (C2) -/

theorem getD_map_range {α : Type} (f : Nat → α) {n i : Nat} (h : i < n) (d : α) :
    ((List.range n).map f).getD i d = f i := by
  rw [List.getD_eq_getElem?_getD, List.getElem?_map, List.getElem?_range h]
  rfl

theorem checkRowsAux_results (m : List (List ℚ)) (shape : CGraph_DistMatCheckResult) :
    ∀ ixs : List Nat, checkRowsAux m shape ixs = none ∨
      checkRowsAux m shape ixs = some .tooLarge ∨
      checkRowsAux m shape ixs = some .badShape := by
  intro ixs
  induction ixs with
  | nil => exact Or.inl rfl
  | cons i rest ih =>
    simp only [checkRowsAux]
    split_ifs
    · exact Or.inr (Or.inl rfl)
    · exact Or.inr (Or.inr rfl)
    · exact Or.inr (Or.inr rfl)
    · exact Or.inr (Or.inr rfl)
    · exact ih

/-- Inversion for a successful (shape) classification: the shape came from the
rows-0/1 branch and the row loop fell through. -/
theorem ClassifyShape_some_inv {m : List (List ℚ)} {sh : CGraph_DistMatCheckResult}
    (h : ClassifyShape m = some sh) (hbs : sh ≠ .badShape) (htl : sh ≠ .tooLarge) :
    2 ≤ m.length ∧ detectShape m = sh ∧
      checkRowsAux m sh (List.range m.length) = none := by
  unfold ClassifyShape at h
  by_cases hn : m.length < 2
  · rw [if_pos hn] at h
    cases h
  · rw [if_neg hn] at h
    by_cases hd : detectShape m = .badShape
    · rw [if_pos hd] at h
      cases h
      exact absurd rfl hbs
    · rw [if_neg hd] at h
      rcases checkRowsAux_results m (detectShape m) (List.range m.length) with
        hres | hres | hres
      · rw [hres] at h
        cases h
        exact ⟨by omega, rfl, hres⟩
      · rw [hres] at h
        cases h
        exact absurd rfl htl
      · rw [hres] at h
        cases h
        exact absurd rfl hbs

/-- Inversion for `CheckInput_DistMat` returning one of the accepted shapes. -/
theorem CheckInput_some_shape_inv {m : List (List ℚ)} {sh : CGraph_DistMatCheckResult}
    (hsh : sh = .square ∨ sh = .lowerTriangular ∨ sh = .upperTriangular)
    (h : CheckInput_DistMat m = some sh) :
    ClassifyShape m = some sh ∧ elemBad m = false := by
  unfold CheckInput_DistMat at h
  by_cases hn : m.length > uintMax
  · rw [if_pos hn] at h
    cases h
    rcases hsh with hs | hs | hs <;> cases hs
  · rw [if_neg hn] at h
    split at h
    · cases h
    · rename_i r hcs
      split_ifs at h with hr he
      · cases h
        rcases hsh with hs | hs | hs <;> cases hs
      · cases h
        exact ⟨hcs, by simpa using he⟩
      · cases h
        exact absurd hsh hr

theorem mkAdjacency_of_rows {m : List (List ℚ)} {n : Nat}
    (h : ∀ i < n, n ≤ rowLen m i) :
    mkAdjacency m n = some ((List.range n).map fun i => (List.range n).map fun j =>
      decide (entry m i j ≥ 0 ∧ i ≠ j)) := by
  unfold mkAdjacency
  rw [if_pos]
  rw [List.all_eq_true]
  intro i hi
  exact decide_eq_true (h i (List.mem_range.mp hi))

theorem mkAdjacency_short_row {m : List (List ℚ)} {n i : Nat}
    (hi : i < n) (h : rowLen m i < n) : mkAdjacency m n = none := by
  unfold mkAdjacency
  rw [if_neg]
  intro hall
  rw [List.all_eq_true] at hall
  have := hall i (List.mem_range.mpr hi)
  rw [decide_eq_true_iff] at this
  omega

theorem constructWithMatrix_ok_inv {m : List (List ℚ)} {labels : List Nat}
    {dMat : List (List ℚ)} {g : CGraph}
    (h : constructWithMatrix m labels dMat = .ok g) :
    labels.length = m.length ∧ (buildExtMap labels).length = m.length ∧
    ∃ adj, mkAdjacency m m.length = some adj ∧
      g = { order := m.length, distanceMatrix := dMat, adjacencyMatrix := adj,
            internalToExternal := labels, externalToInternal := buildExtMap labels } := by
  unfold constructWithMatrix at h
  by_cases hl : labels.length ≠ m.length
  · rw [if_pos hl] at h
    cases h
  · rw [if_neg hl] at h
    by_cases he : (buildExtMap labels).length ≠ m.length
    · rw [if_pos he] at h
      cases h
    · rw [if_neg he] at h
      rcases hadj : mkAdjacency m m.length with _ | adj
      · rw [hadj] at h
        cases h
      · rw [hadj] at h
        cases h
        exact ⟨by omega, by omega, adj, rfl, rfl⟩

/-- Full inversion of a successful construction: the input must have been
classified square (triangular inputs die on the out-of-bounds adjacency read),
and every component of the graph is determined. -/
theorem construct_ok_inv {m : List (List ℚ)} {labels : List Nat} {g : CGraph}
    (h : CGraph.construct m labels = .ok g) :
    CheckInput_DistMat m = some .square ∧
    g.order = m.length ∧
    g.distanceMatrix = m ∧
    g.adjacencyMatrix = ((List.range m.length).map fun i =>
      (List.range m.length).map fun j => decide (entry m i j ≥ 0 ∧ i ≠ j)) ∧
    g.internalToExternal = labels ∧
    g.externalToInternal = buildExtMap labels ∧
    labels.length = m.length ∧
    (buildExtMap labels).length = m.length ∧
    2 ≤ m.length ∧
    (∀ i < m.length, rowLen m i = m.length) := by
  unfold CGraph.construct at h
  rcases hci : CheckInput_DistMat m with _ | sh
  · rw [hci] at h
    cases h
  rw [hci] at h
  have hrows_of_sq : CheckInput_DistMat m = some .square →
      2 ≤ m.length ∧ ∀ i < m.length, rowLen m i = m.length := by
    intro hsq
    have hinv := (CheckInput_some_shape_inv (Or.inl rfl) hsq).1
    obtain ⟨hn2, _, hloop⟩ := ClassifyShape_some_inv hinv (by decide) (by decide)
    refine ⟨hn2, ?_⟩
    intro i hi
    have := (checkRowsAux_none_iff m .square (List.range m.length)).mp hloop i
      (List.mem_range.mpr hi)
    exact this.2.1 rfl
  cases sh with
  | undefined => cases h
  | tooLarge => cases h
  | badShape => cases h
  | invalidElements => cases h
  | square =>
    obtain ⟨hn2, hrows⟩ := hrows_of_sq hci
    replace h : constructWithMatrix m labels m = Except.ok g := h
    obtain ⟨hl, he, adj, hadj, hg⟩ := constructWithMatrix_ok_inv h
    rw [mkAdjacency_of_rows (fun i hi => (hrows i hi).ge)] at hadj
    cases hadj
    subst hg
    exact ⟨rfl, rfl, rfl, rfl, rfl, rfl, hl, he, hn2, hrows⟩
  | lowerTriangular =>
    replace h : constructWithMatrix m labels (symmetriseLower m) = Except.ok g := h
    obtain ⟨-, -, adj, hadj, -⟩ := constructWithMatrix_ok_inv h
    have hinv := (CheckInput_some_shape_inv (Or.inr (Or.inl rfl)) hci).1
    obtain ⟨hn2, hdet, -⟩ := ClassifyShape_some_inv hinv (by decide) (by decide)
    have h0 : rowLen m 0 = 1 := (detectShape_eq_lower hdet).1
    rw [mkAdjacency_short_row (show 0 < m.length by omega) (by omega)] at hadj
    cases hadj
  | upperTriangular =>
    replace h : constructWithMatrix m labels (symmetriseUpper m) = Except.ok g := h
    obtain ⟨-, -, adj, hadj, -⟩ := constructWithMatrix_ok_inv h
    have hinv := (CheckInput_some_shape_inv (Or.inr (Or.inr rfl)) hci).1
    obtain ⟨hn2, hdet, -⟩ := ClassifyShape_some_inv hinv (by decide) (by decide)
    have h1 : rowLen m 1 = m.length - 1 := (detectShape_eq_upper hdet).2
    rw [mkAdjacency_short_row (show 1 < m.length by omega) (by omega)] at hadj
    cases hadj

/-- Claim C2: in every successfully constructed graph, the adjacency matrix
entry `(i, j)` is true exactly when the normalised square distance matrix
entry `(i, j)` is non-negative and `i ≠ j`, for all internal indices
`i, j < order`.  (Construction from triangular input never succeeds — see
`claim_C9` — so every successfully constructed graph is a square one, where
the raw input read by the adjacency loop coincides with the normalised
matrix.) -/
theorem claim_C2 (m : List (List ℚ)) (labels : List Nat) (g : CGraph)
    (h : CGraph.construct m labels = .ok g) :
    ∀ i < g.order, ∀ j < g.order,
      (g.adjAt i j = true ↔ g.distAt i j ≥ 0 ∧ i ≠ j) := by
  obtain ⟨-, hord, hdm, hadj, -, -, -, -, -, -⟩ := construct_ok_inv h
  intro i hi j hj
  rw [hord] at hi hj
  unfold CGraph.adjAt CGraph.distAt
  rw [hadj, hdm, getD_map_range _ hi, getD_map_range _ hj]
  rw [decide_eq_true_iff]
  rfl

/-- Claim C2, witness: the invariant instantiated at the concrete path graph
of the spec's scenario. -/
theorem claim_C2_witness :
    CGraph.construct matPath4 labels4 = .ok graphPath4 ∧
    (∀ i < graphPath4.order, ∀ j < graphPath4.order,
      (graphPath4.adjAt i j = true ↔ graphPath4.distAt i j ≥ 0 ∧ i ≠ j)) :=
  ⟨by decide, claim_C2 matPath4 labels4 graphPath4 (by decide)⟩

/-! ### Cache-policy lemmas (C5, C6) -/

theorem lookupAssoc_insert_self (l : List (Nat × Nat)) (k v : Nat) :
    lookupAssoc (insertAssoc l k v) k = some v := by
  induction l with
  | nil => simp [insertAssoc, lookupAssoc]
  | cons p rest ih =>
    by_cases hk : p.1 = k
    · simp [insertAssoc, hk, lookupAssoc]
    · simp only [insertAssoc]
      rw [if_neg hk]
      simp only [lookupAssoc]
      rw [if_neg hk]
      exact ih

theorem lookupAssoc_insert_ne (l : List (Nat × Nat)) (k v k' : Nat) (h : k' ≠ k) :
    lookupAssoc (insertAssoc l k v) k' = lookupAssoc l k' := by
  induction l with
  | nil =>
    simp only [insertAssoc, lookupAssoc]
    rw [if_neg (fun he => h he.symm)]
  | cons p rest ih =>
    by_cases hk : p.1 = k
    · simp only [insertAssoc]
      rw [if_pos hk]
      simp only [lookupAssoc]
      rw [if_neg (fun he : k = k' => h he.symm), if_neg (hk ▸ fun he : p.1 = k' => (hk ▸ h) he.symm)]
    · simp only [insertAssoc]
      rw [if_neg hk]
      simp only [lookupAssoc]
      by_cases hp : p.1 = k'
      · rw [if_pos hp, if_pos hp]
      · rw [if_neg hp, if_neg hp]
        exact ih

/-- A cached source is returned as-is: the slot index is looked up and the
state is untouched (`InternalDijkstra` lines 355-358). -/
theorem InternalDijkstra_cached {g : CGraph} {st : DijkstraState} {s idx : Nat}
    (hs : s < g.order) (h : lookupAssoc st.startVertices s = some idx) :
    InternalDijkstra g st s = .ok (idx, st) := by
  unfold InternalDijkstra
  rw [if_neg (by omega), h]

theorem InternalDijkstra_ok_inv {g : CGraph} {st : DijkstraState} {s idx : Nat}
    {st' : DijkstraState} (h : InternalDijkstra g st s = .ok (idx, st')) :
    (lookupAssoc st.startVertices s = some idx ∧ st' = st) ∨
    (lookupAssoc st.startVertices s = none ∧
      ∃ dist par, dijkstraLoop g ((dijkstraInitKnown g s).count false)
          (dijkstraInitDist g s) (dijkstraInitPar g s) (dijkstraInitKnown g s) =
          .ok (dist, par) ∧
        idx = st.outputRoutes.length ∧
        st' = { outputRoutes := st.outputRoutes ++ [par],
                shortestDistances := st.shortestDistances ++ [dist],
                startVertices := insertAssoc st.startVertices s idx }) := by
  unfold InternalDijkstra at h
  by_cases hs : g.order ≤ s
  · rw [if_pos hs] at h
    cases h
  · rw [if_neg hs] at h
    rcases hl : lookupAssoc st.startVertices s with _ | idx0
    · rw [hl] at h
      rcases hloop : dijkstraLoop g ((dijkstraInitKnown g s).count false)
          (dijkstraInitDist g s) (dijkstraInitPar g s) (dijkstraInitKnown g s) with e | p
      · rw [hloop] at h
        cases h
      · rw [hloop] at h
        cases h
        exact Or.inr ⟨rfl, p.1, p.2, rfl, rfl, rfl⟩
    · rw [hl] at h
      cases h
      exact Or.inl ⟨rfl, rfl⟩

/-- After a successful run from `s`, the state maps `s` to the returned slot. -/
theorem InternalDijkstra_ok_lookup {g : CGraph} {st : DijkstraState} {s idx : Nat}
    {st' : DijkstraState} (h : InternalDijkstra g st s = .ok (idx, st')) :
    lookupAssoc st'.startVertices s = some idx := by
  rcases InternalDijkstra_ok_inv h with ⟨hl, he⟩ | ⟨hl, dist, par, _, hidx, he⟩
  · rw [he]
    exact hl
  · rw [he]
    exact hidx ▸ lookupAssoc_insert_self st.startVertices s idx

/-- A successful run from `s` does not change any other source's slot. -/
theorem InternalDijkstra_ok_lookup_ne {g : CGraph} {st : DijkstraState} {s idx : Nat}
    {st' : DijkstraState} (h : InternalDijkstra g st s = .ok (idx, st'))
    {t : Nat} (ht : t ≠ s) :
    lookupAssoc st'.startVertices t = lookupAssoc st.startVertices t := by
  rcases InternalDijkstra_ok_inv h with ⟨hl, he⟩ | ⟨hl, dist, par, _, hidx, he⟩
  · rw [he]
  · rw [he]
    exact lookupAssoc_insert_ne st.startVertices s idx t ht

theorem rootSelect_end_cached {g : CGraph} {st : DijkstraState} {s e : Nat}
    {pref : Bool} (h : (lookupAssoc st.startVertices e).isSome) :
    rootSelect g st s e pref = .ok (false, st) := by
  unfold rootSelect
  rw [if_pos h]

theorem rootSelect_start_cached {g : CGraph} {st : DijkstraState} {s e : Nat}
    {pref : Bool} (he : lookupAssoc st.startVertices e = none)
    (hs : (lookupAssoc st.startVertices s).isSome) :
    rootSelect g st s e pref = .ok (true, st) := by
  unfold rootSelect
  rw [if_neg (by rw [he]; simp), if_pos hs]

theorem rootSelect_fresh_start {g : CGraph} {st : DijkstraState} {s e : Nat}
    (he : lookupAssoc st.startVertices e = none)
    (hs : lookupAssoc st.startVertices s = none) :
    rootSelect g st s e true =
      match InternalDijkstra g st s with
      | .error err => .error err
      | .ok p => .ok (true, p.2) := by
  unfold rootSelect
  rw [if_neg (by rw [he]; simp), if_neg (by rw [hs]; simp), if_pos rfl]

theorem rootSelect_fresh_end {g : CGraph} {st : DijkstraState} {s e : Nat}
    (he : lookupAssoc st.startVertices e = none)
    (hs : lookupAssoc st.startVertices s = none) :
    rootSelect g st s e false =
      match InternalDijkstra g st e with
      | .error err => .error err
      | .ok p => .ok (false, p.2) := by
  unfold rootSelect
  rw [if_neg (by rw [he]; simp), if_neg (by rw [hs]; simp), if_neg (by simp)]

theorem ISD_ok_inv {g : CGraph} {st : DijkstraState} {s e : Nat} {pref : Bool}
    {d : ℚ} {route : List Nat} {st2 : DijkstraState}
    (h : InternalShortestDistance g st s e pref = .ok (d, route, st2)) :
    ∃ fs, rootSelect g st s e pref = .ok (fs, st2) ∧
      walkPhase g st2 fs s e = .ok (d, route) := by
  unfold InternalShortestDistance at h
  split at h
  · cases h
  · rename_i fs0 st20 hrs
    split at h
    · cases h
    · rename_i d0 route0 hwp
      cases h
      exact ⟨fs0, hrs, hwp⟩

theorem ISD_of_parts {g : CGraph} {st : DijkstraState} {s e : Nat} {pref : Bool}
    {d : ℚ} {route : List Nat} {st2 : DijkstraState} {fs : Bool}
    (h1 : rootSelect g st s e pref = .ok (fs, st2))
    (h2 : walkPhase g st2 fs s e = .ok (d, route)) :
    InternalShortestDistance g st s e pref = .ok (d, route, st2) := by
  simp only [InternalShortestDistance, h1, h2]

theorem SD_ok_inv {g : CGraph} {st : DijkstraState} {a b : Nat} {pref : Bool}
    {d : ℚ} {r : List Nat} {st' : DijkstraState}
    (h : ShortestDistance g st a b pref = .ok (d, r, st')) :
    ∃ iS iE rInt, ExternalToInternal g a = some iS ∧
      ExternalToInternal g b = some iE ∧
      InternalShortestDistance g st iS iE pref = .ok (d, rInt, st') ∧
      routeToExternal g rInt = some r := by
  unfold ShortestDistance at h
  split at h
  · cases h
  · rename_i iS ha
    split at h
    · cases h
    · rename_i iE hb
      split at h
      · cases h
      · rename_i d0 route0 st20 hisd
        split at h
        · cases h
        · rename_i rExt hre
          cases h
          exact ⟨iS, iE, route0, ha, hb, hisd, hre⟩

theorem SD_of_parts {g : CGraph} {st : DijkstraState} {a b : Nat} {pref : Bool}
    {d : ℚ} {r rInt : List Nat} {st' : DijkstraState} {iS iE : Nat}
    (ha : ExternalToInternal g a = some iS) (hb : ExternalToInternal g b = some iE)
    (hisd : InternalShortestDistance g st iS iE pref = .ok (d, rInt, st'))
    (hre : routeToExternal g rInt = some r) :
    ShortestDistance g st a b pref = .ok (d, r, st') := by
  simp only [ShortestDistance, ha, hb, hisd, hre]

theorem walkPhase_false_ok_inv {g : CGraph} {st : DijkstraState} {s e : Nat}
    {d : ℚ} {r : List Nat} (h : walkPhase g st false s e = .ok (d, r)) :
    ∃ idx parVec, lookupAssoc st.startVertices e = some idx ∧
      st.outputRoutes.get? idx = some parVec ∧
      parentWalk parVec e (g.order + 1) s [s] = .ok r ∧
      (st.shortestDistances.getD idx []).get? s = some d := by
  unfold walkPhase at h
  rw [if_neg (by simp)] at h
  split at h
  · cases h
  · rename_i idx hl
    split at h
    · cases h
    · rename_i parVec hor
      split at h
      · cases h
      · rename_i route hpw
        split at h
        · cases h
        · rename_i d0 hd
          cases h
          exact ⟨idx, parVec, hl, hor, hpw, hd⟩

theorem walkPhase_true_ok_inv {g : CGraph} {st : DijkstraState} {s e : Nat}
    {d : ℚ} {r : List Nat} (h : walkPhase g st true s e = .ok (d, r)) :
    ∃ idx parVec revRoute, lookupAssoc st.startVertices s = some idx ∧
      st.outputRoutes.get? idx = some parVec ∧
      parentWalk parVec s (g.order + 1) e [e] = .ok revRoute ∧
      r = revRoute.reverse ∧
      (st.shortestDistances.getD idx []).get? e = some d := by
  unfold walkPhase at h
  rw [if_pos rfl] at h
  split at h
  · cases h
  · rename_i idx hl
    split at h
    · cases h
    · rename_i parVec hor
      split at h
      · cases h
      · rename_i revRoute hpw
        split at h
        · cases h
        · rename_i d0 hd
          cases h
          exact ⟨idx, parVec, revRoute, hl, hor, hpw, rfl, hd⟩

/-- The parent walk returns immediately when it starts at its target. -/
theorem parentWalk_refl (par : List Nat) (t fuel : Nat) (acc : List Nat) :
    parentWalk par t fuel t acc = .ok acc := by
  unfold parentWalk
  rw [if_pos rfl]

theorem walkPhase_false_of {g : CGraph} {st : DijkstraState} {s e idx : Nat}
    {parVec route : List Nat} {d : ℚ}
    (hl : lookupAssoc st.startVertices e = some idx)
    (hor : st.outputRoutes.get? idx = some parVec)
    (hpw : parentWalk parVec e (g.order + 1) s [s] = .ok route)
    (hd : (st.shortestDistances.getD idx []).get? s = some d) :
    walkPhase g st false s e = .ok (d, route) := by
  simp only [walkPhase, Bool.false_eq_true, if_false, hl, hor, hpw, hd]

theorem walkPhase_true_of {g : CGraph} {st : DijkstraState} {s e idx : Nat}
    {parVec revRoute : List Nat} {d : ℚ}
    (hl : lookupAssoc st.startVertices s = some idx)
    (hor : st.outputRoutes.get? idx = some parVec)
    (hpw : parentWalk parVec s (g.order + 1) e [e] = .ok revRoute)
    (hd : (st.shortestDistances.getD idx []).get? e = some d) :
    walkPhase g st true s e = .ok (d, revRoute.reverse) := by
  simp only [walkPhase, if_true, hl, hor, hpw, hd]

/-- Claim C5: the cache policy of every query.  If a tree rooted at the end
vertex is cached it is used (no state change, distance read from its slot);
otherwise a cached tree rooted at the start vertex is used; otherwise a fresh
tree is computed, rooted at the start when `preferStartVertex` and at the end
otherwise.  In particular a query ending at an already-rooted vertex runs no
new single-source computation. -/
theorem claim_C5 (g : CGraph) (st : DijkstraState) (a b : Nat) (pref : Bool)
    (ia ib : Nat) (ha : ExternalToInternal g a = some ia)
    (hb : ExternalToInternal g b = some ib) :
    ((lookupAssoc st.startVertices ib).isSome →
      ∀ d r st', ShortestDistance g st a b pref = .ok (d, r, st') →
        st' = st ∧ ∀ idx, lookupAssoc st.startVertices ib = some idx →
          d = (st.shortestDistances.getD idx []).getD ia 0) ∧
    (lookupAssoc st.startVertices ib = none →
      (lookupAssoc st.startVertices ia).isSome →
      ∀ d r st', ShortestDistance g st a b pref = .ok (d, r, st') →
        st' = st ∧ ∀ idx, lookupAssoc st.startVertices ia = some idx →
          d = (st.shortestDistances.getD idx []).getD ib 0) ∧
    (lookupAssoc st.startVertices ib = none →
      lookupAssoc st.startVertices ia = none → pref = true →
      ∀ d r st', ShortestDistance g st a b pref = .ok (d, r, st') →
        ∃ idx, InternalDijkstra g st ia = .ok (idx, st')) ∧
    (lookupAssoc st.startVertices ib = none →
      lookupAssoc st.startVertices ia = none → pref = false →
      ∀ d r st', ShortestDistance g st a b pref = .ok (d, r, st') →
        ∃ idx, InternalDijkstra g st ib = .ok (idx, st')) := by
  refine ⟨?_, ?_, ?_, ?_⟩
  · intro hsome d r st' hsd
    obtain ⟨iS, iE, rInt, ha', hb', hisd, hre⟩ := SD_ok_inv hsd
    rw [ha] at ha'
    rw [hb] at hb'
    cases ha'
    cases hb'
    obtain ⟨fs, hrs, hwp⟩ := ISD_ok_inv hisd
    have hrs0 := @rootSelect_end_cached g st ia ib pref hsome
    have heq := hrs0.symm.trans hrs
    cases heq
    refine ⟨rfl, ?_⟩
    intro idx hidx
    obtain ⟨idx0, parVec, hl, hor, hpw, hd⟩ := walkPhase_false_ok_inv hwp
    rw [hidx] at hl
    cases hl
    rw [List.getD_eq_getElem?_getD, ← List.get?_eq_getElem?, hd]
    rfl
  · intro hnone hsome d r st' hsd
    obtain ⟨iS, iE, rInt, ha', hb', hisd, hre⟩ := SD_ok_inv hsd
    rw [ha] at ha'
    rw [hb] at hb'
    cases ha'
    cases hb'
    obtain ⟨fs, hrs, hwp⟩ := ISD_ok_inv hisd
    have hrs0 := @rootSelect_start_cached g st ia ib pref hnone hsome
    have heq := hrs0.symm.trans hrs
    cases heq
    refine ⟨rfl, ?_⟩
    intro idx hidx
    obtain ⟨idx0, parVec, revRoute, hl, hor, hpw, hrev, hd⟩ := walkPhase_true_ok_inv hwp
    rw [hidx] at hl
    cases hl
    rw [List.getD_eq_getElem?_getD, ← List.get?_eq_getElem?, hd]
    rfl
  · intro hnone hnone' hpref d r st' hsd
    subst hpref
    obtain ⟨iS, iE, rInt, ha', hb', hisd, hre⟩ := SD_ok_inv hsd
    rw [ha] at ha'
    rw [hb] at hb'
    cases ha'
    cases hb'
    obtain ⟨fs, hrs, hwp⟩ := ISD_ok_inv hisd
    rw [rootSelect_fresh_start hnone hnone'] at hrs
    rcases hdij : InternalDijkstra g st ia with err | p
    · rw [hdij] at hrs
      cases hrs
    · rw [hdij] at hrs
      cases hrs
      exact ⟨p.1, rfl⟩
  · intro hnone hnone' hpref d r st' hsd
    subst hpref
    obtain ⟨iS, iE, rInt, ha', hb', hisd, hre⟩ := SD_ok_inv hsd
    rw [ha] at ha'
    rw [hb] at hb'
    cases ha'
    cases hb'
    obtain ⟨fs, hrs, hwp⟩ := ISD_ok_inv hisd
    rw [rootSelect_fresh_end hnone hnone'] at hrs
    rcases hdij : InternalDijkstra g st ib with err | p
    · rw [hdij] at hrs
      cases hrs
    · rw [hdij] at hrs
      cases hrs
      exact ⟨p.1, rfl⟩

/-- Claim C5, witness: on the concrete path graph, after a first query has
rooted a tree at the end vertex, the policy facts hold for a second query with
the same end vertex. -/
theorem claim_C5_witness :
    ExternalToInternal graphPath4 10 = some 0 ∧
    ExternalToInternal graphPath4 40 = some 3 ∧
    ((lookupAssoc emptyState.startVertices 3).isSome →
      ∀ d r st', ShortestDistance graphPath4 emptyState 10 40 false = .ok (d, r, st') →
        st' = emptyState ∧ ∀ idx, lookupAssoc emptyState.startVertices 3 = some idx →
          d = (emptyState.shortestDistances.getD idx []).getD 0 0) ∧
    (lookupAssoc emptyState.startVertices 3 = none →
      lookupAssoc emptyState.startVertices 0 = none → false = false →
      ∀ d r st', ShortestDistance graphPath4 emptyState 10 40 false = .ok (d, r, st') →
        ∃ idx, InternalDijkstra graphPath4 emptyState 3 = .ok (idx, st')) := by
  have h := claim_C5 graphPath4 emptyState 10 40 false 0 3 (by decide) (by decide)
  exact ⟨by decide, by decide, h.1, h.2.2.2⟩

/-- Claim C6: the cache is never recomputed, overwritten or removed: a
single-source request for an already cached source returns the existing slot
index with the state unchanged, and repeating a query with identical
arguments returns the identical distance, route and state. -/
theorem claim_C6 (g : CGraph) (st : DijkstraState) :
    (∀ s idx, s < g.order → lookupAssoc st.startVertices s = some idx →
      InternalDijkstra g st s = .ok (idx, st)) ∧
    (∀ a b pref d r st', ShortestDistance g st a b pref = .ok (d, r, st') →
      ShortestDistance g st' a b pref = .ok (d, r, st')) := by
  constructor
  · intro s idx hs hl
    exact InternalDijkstra_cached hs hl
  · intro a b pref d r st' h
    obtain ⟨iS, iE, rInt, ha, hb, hisd, hre⟩ := SD_ok_inv h
    obtain ⟨fs, hrs, hwp⟩ := ISD_ok_inv hisd
    by_cases hE : (lookupAssoc st.startVertices iE).isSome
    · have hrs0 := @rootSelect_end_cached g st iS iE pref hE
      have heq := hrs0.symm.trans hrs
      cases heq
      exact h
    · have hEn : lookupAssoc st.startVertices iE = none := by
        rcases hx : lookupAssoc st.startVertices iE with _ | v
        · rfl
        · rw [hx] at hE
          simp at hE
      by_cases hS : (lookupAssoc st.startVertices iS).isSome
      · have hrs0 := @rootSelect_start_cached g st iS iE pref hEn hS
        have heq := hrs0.symm.trans hrs
        cases heq
        exact h
      · have hSn : lookupAssoc st.startVertices iS = none := by
          rcases hx : lookupAssoc st.startVertices iS with _ | v
          · rfl
          · rw [hx] at hS
            simp at hS
        cases pref with
        | false =>
          rw [rootSelect_fresh_end hEn hSn] at hrs
          rcases hdij : InternalDijkstra g st iE with err | p
          · rw [hdij] at hrs
            cases hrs
          · rw [hdij] at hrs
            cases hrs
            have hlook : lookupAssoc p.2.startVertices iE = some p.1 :=
              InternalDijkstra_ok_lookup (by rw [hdij])
            have hrs2 : rootSelect g p.2 iS iE false = .ok (false, p.2) :=
              rootSelect_end_cached (by rw [hlook]; rfl)
            exact SD_of_parts ha hb (ISD_of_parts hrs2 hwp) hre
        | true =>
          rw [rootSelect_fresh_start hEn hSn] at hrs
          rcases hdij : InternalDijkstra g st iS with err | p
          · rw [hdij] at hrs
            cases hrs
          · rw [hdij] at hrs
            cases hrs
            have hlook : lookupAssoc p.2.startVertices iS = some p.1 :=
              InternalDijkstra_ok_lookup (by rw [hdij])
            by_cases hse : iE = iS
            · subst hse
              have hrs2 : rootSelect g p.2 iE iE true = .ok (false, p.2) :=
                rootSelect_end_cached (by rw [hlook]; rfl)
              obtain ⟨idx0, parVec, revRoute, hl, hor, hpw, hrev, hd⟩ :=
                walkPhase_true_ok_inv hwp
              have hrr : revRoute = [iE] := by
                have := (parentWalk_refl parVec iE (g.order + 1) [iE]).symm.trans hpw
                cases this
                rfl
              have hwp2 : walkPhase g p.2 false iE iE = .ok (d, [iE]) :=
                walkPhase_false_of hl hor (parentWalk_refl parVec iE (g.order + 1) [iE]) hd
              have hrint : rInt = [iE] := by
                rw [hrev, hrr]
                rfl
              rw [hrint] at hre
              exact SD_of_parts ha hb (ISD_of_parts hrs2 hwp2) hre
            · have hEn2 : lookupAssoc p.2.startVertices iE = none := by
                rw [InternalDijkstra_ok_lookup_ne (by rw [hdij]) hse]
                exact hEn
              have hrs2 : rootSelect g p.2 iS iE true = .ok (true, p.2) :=
                rootSelect_start_cached hEn2 (by rw [hlook]; rfl)
              exact SD_of_parts ha hb (ISD_of_parts hrs2 hwp) hre

/-- Claim C6, witness: repeating the concrete query `(10, 40)` on the path
graph returns the identical result, and the cached slot for vertex 3 is
returned without recomputation. -/
theorem claim_C6_witness :
    (∀ s idx, s < graphPath4.order →
      lookupAssoc emptyState.startVertices s = some idx →
      InternalDijkstra graphPath4 emptyState s = .ok (idx, emptyState)) ∧
    (∀ a b pref d r st',
      ShortestDistance graphPath4 emptyState a b pref = .ok (d, r, st') →
      ShortestDistance graphPath4 st' a b pref = .ok (d, r, st')) :=
  claim_C6 graphPath4 emptyState

/-! ### Self-query behaviour (C4) -/

theorem get?_eq_some_getD {α : Type} {l : List α} {i : Nat} (h : i < l.length) (d : α) :
    l.get? i = some (l.getD i d) := by
  rcases hx : l.get? i with _ | a
  · rw [List.get?_eq_none] at hx
    omega
  · rw [List.getD_eq_getElem?_getD, ← List.get?_eq_getElem?, hx]
    rfl

/-- Every binding of the external-to-internal map points back into the label
list: the value is a valid internal index whose label is the key. -/
theorem buildExtMap_lookup (labels : List Nat) :
    ∀ v i, lookupAssoc (buildExtMap labels) v = some i →
      i < labels.length ∧ labels.get? i = some v := by
  have main : ∀ (ixs : List Nat) (mp : List (Nat × Nat)),
      (∀ v i, lookupAssoc mp v = some i → i < labels.length ∧ labels.get? i = some v) →
      (∀ j ∈ ixs, j < labels.length) →
      ∀ v i, lookupAssoc
          (ixs.foldl (fun mp i => insertAssoc mp (labels.getD i 0) i) mp) v = some i →
        i < labels.length ∧ labels.get? i = some v := by
    intro ixs
    induction ixs with
    | nil =>
      intro mp hmp _ v i h
      exact hmp v i h
    | cons j rest ih =>
      intro mp hmp hix v i h
      simp only [List.foldl_cons] at h
      refine ih _ ?_ (fun j' hj' => hix j' (List.mem_cons_of_mem _ hj')) v i h
      intro v' i' h'
      by_cases hv : v' = labels.getD j 0
      · subst hv
        rw [lookupAssoc_insert_self] at h'
        cases h'
        have hjlen : j < labels.length := hix j (by simp)
        exact ⟨hjlen, get?_eq_some_getD hjlen 0⟩
      · rw [lookupAssoc_insert_ne _ _ _ _ hv] at h'
        exact hmp v' i' h'
  intro v i h
  refine main (List.range labels.length) [] ?_ ?_ v i h
  · intro v' i' h'
    cases h'
  · intro j hj
    exact List.mem_range.mp hj

theorem selectNextAux_isSome_of_acc (known : List Bool) (dist : List ℚ) :
    ∀ (ixs : List Nat) (acc : Option (Nat × ℚ)), acc.isSome →
      (selectNextAux known dist ixs acc).isSome := by
  intro ixs
  induction ixs with
  | nil =>
    intro acc hacc
    exact hacc
  | cons j rest ih =>
    intro acc hacc
    rw [selectNextAux]
    split_ifs
    · exact ih _ rfl
    · exact ih _ hacc

theorem selectNextAux_isSome_of_cand (known : List Bool) (dist : List ℚ) :
    ∀ (ixs : List Nat) (acc : Option (Nat × ℚ)) (i : Nat), i ∈ ixs →
      known.getD i true = false → dist.getD i 0 ≠ -1 →
      (selectNextAux known dist ixs acc).isSome := by
  intro ixs
  induction ixs with
  | nil =>
    intro acc i hi
    cases hi
  | cons j rest ih =>
    intro acc i hi hk hd
    rw [selectNextAux]
    split_ifs with hcond
    · exact selectNextAux_isSome_of_acc known dist rest _ rfl
    · rcases List.mem_cons.mp hi with hij | hmem
      · subst hij
        -- the branch condition can only fail through the accumulator,
        -- which must then already hold a candidate
        rcases hacc : acc with _ | p
        · exfalso
          apply hcond
          rw [hk, hacc]
          simp only [Bool.not_false, Bool.true_and, Option.all_none, Bool.and_true,
            decide_eq_true_iff]
          exact hd
        · exact selectNextAux_isSome_of_acc known dist rest _ rfl
      · exact ih acc i hmem hk hd

theorem selectNext_isSome_of_cand {known : List Bool} {dist : List ℚ} {i : Nat}
    (hik : i < known.length) (hk : known.getD i true = false)
    (hd : dist.getD i 0 ≠ -1) : (selectNext known dist).isSome := by
  exact selectNextAux_isSome_of_cand known dist (List.range known.length) none i
    (List.mem_range.mpr hik) hk hd

theorem count_false_pos {l : List Bool} {i : Nat} (h : l.getD i true = false) :
    0 < l.count false := by
  have hil : i < l.length := lt_length_of_getD_false h
  have hmem : false ∈ l := by
    rw [List.getD_eq_getElem?_getD, List.getElem?_eq_getElem hil] at h
    simp only [Option.getD_some] at h
    exact h ▸ List.getElem_mem hil
  exact List.count_pos_iff.mpr hmem

theorem moreVertices_exists {order : Nat} {known : List Bool} {dist : List ℚ}
    (h : moreVertices order known dist = true) :
    ∃ i < order, known.getD i true = false ∧ dist.getD i 0 ≠ -1 := by
  unfold moreVertices at h
  rw [List.any_eq_true] at h
  obtain ⟨i, hi, hcond⟩ := h
  rw [Bool.and_eq_true, Bool.not_eq_true', decide_eq_true_iff] at hcond
  exact ⟨i, List.mem_range.mp hi, hcond.1, hcond.2⟩

theorem relaxDist_length (g : CGraph) (c : Nat) (known : List Bool) (dist : List ℚ) :
    (relaxDist g c known dist).length = g.order := by
  simp [relaxDist]

theorem relaxDist_getD_known {g : CGraph} {c : Nat} {known : List Bool}
    {dist : List ℚ} {i : Nat} (hi : i < g.order)
    (hknown : known.getD i true = true) :
    (relaxDist g c known dist).getD i 0 = dist.getD i 0 := by
  unfold relaxDist
  rw [getD_map_range _ hi]
  rw [if_neg]
  intro hc
  rw [hc.1] at hknown
  exact absurd hknown (by decide)

theorem getD_set_true {l : List Bool} {c i : Nat} (h : l.getD i true = true) :
    (l.set c true).getD i true = true := by
  by_cases hci : c = i
  · subst hci
    by_cases hcl : c < l.length
    · rw [List.getD_eq_getElem?_getD]
      rw [List.getElem?_set_self (by omega)]
      rfl
    · rw [List.set_eq_of_length_le (by omega)]
      exact h
  · rw [List.getD_eq_getElem?_getD, List.getElem?_set_ne (fun he => hci he)]
    rw [List.getD_eq_getElem?_getD] at h
    exact h

/-- Through the whole loop, the estimate of an already confirmed vertex never
changes (the update loop only touches unconfirmed vertices). -/
theorem dijkstraLoop_preserves_known (g : CGraph) :
    ∀ (fuel : Nat) (dist : List ℚ) (par : List Nat) (known : List Bool)
      (i : Nat), i < g.order → known.getD i true = true →
      ∀ dist' par', dijkstraLoop g fuel dist par known = .ok (dist', par') →
        dist'.getD i 0 = dist.getD i 0 := by
  intro fuel
  induction fuel with
  | zero =>
    intro dist par known i hi hknown dist' par' h
    rcases hs : selectNext known dist with _ | c
    · rw [dijkstraLoop_step_none hs] at h
      cases h
    · rw [dijkstraLoop_step_some hs] at h
      rcases hmore : moreVertices g.order (known.set c.1 true)
          (relaxDist g c.1 known dist) with _ | _
      · rw [hmore] at h
        replace h : Except.ok (relaxDist g c.1 known dist, relaxPar g c.1 known dist par)
            = Except.ok (dist', par') := h
        cases h
        exact relaxDist_getD_known hi hknown
      · rw [hmore] at h
        replace h : (Except.error CGraphError.nonTermination :
            Except CGraphError (List ℚ × List Nat)) = Except.ok (dist', par') := h
        cases h
  | succ f ih =>
    intro dist par known i hi hknown dist' par' h
    rcases hs : selectNext known dist with _ | c
    · rw [dijkstraLoop_step_none hs] at h
      cases h
    · rw [dijkstraLoop_step_some hs] at h
      rcases hmore : moreVertices g.order (known.set c.1 true)
          (relaxDist g c.1 known dist) with _ | _
      · rw [hmore] at h
        replace h : Except.ok (relaxDist g c.1 known dist, relaxPar g c.1 known dist par)
            = Except.ok (dist', par') := h
        cases h
        exact relaxDist_getD_known hi hknown
      · rw [hmore] at h
        replace h : dijkstraLoop g f (relaxDist g c.1 known dist)
            (relaxPar g c.1 known dist par) (known.set c.1 true) = Except.ok (dist', par') := h
        have := ih _ _ _ i hi (getD_set_true hknown) dist' par' h
        rw [this]
        exact relaxDist_getD_known hi hknown

/-- With fuel at least the number of unconfirmed vertices minus one, the loop
never exhausts its fuel: it either selects nothing on its first iteration
(the undefined-behaviour case) or runs to completion.  When the first
selection succeeds the result is a success. -/
theorem dijkstraLoop_ok (g : CGraph) :
    ∀ (fuel : Nat) (dist : List ℚ) (par : List Nat) (known : List Bool),
      known.length = g.order → dist.length = g.order →
      known.count false ≤ fuel + 1 →
      (selectNext known dist).isSome →
      ∃ dist' par', dijkstraLoop g fuel dist par known = .ok (dist', par') ∧
        dist'.length = g.order := by
  intro fuel
  induction fuel with
  | zero =>
    intro dist par known hkl hdl hcount hsel
    rcases hs : selectNext known dist with _ | c
    · rw [hs] at hsel
      cases hsel
    · have hkc : known.getD c.1 true = false := selectNext_some_false hs
      have hcount1 : 0 < known.count false := count_false_pos hkc
      have hdec := count_false_set_true known c.1 hkc
      rw [dijkstraLoop_step_some hs]
      rcases hmore : moreVertices g.order (known.set c.1 true)
          (relaxDist g c.1 known dist) with _ | _
      · exact ⟨_, _, rfl, relaxDist_length g c.1 known dist⟩
      · exfalso
        obtain ⟨i, hio, hik, hid⟩ := moreVertices_exists hmore
        have : 0 < (known.set c.1 true).count false := count_false_pos hik
        omega
  | succ f ih =>
    intro dist par known hkl hdl hcount hsel
    rcases hs : selectNext known dist with _ | c
    · rw [hs] at hsel
      cases hsel
    · have hkc : known.getD c.1 true = false := selectNext_some_false hs
      have hdec := count_false_set_true known c.1 hkc
      rw [dijkstraLoop_step_some hs]
      rcases hmore : moreVertices g.order (known.set c.1 true)
          (relaxDist g c.1 known dist) with _ | _
      · exact ⟨_, _, rfl, relaxDist_length g c.1 known dist⟩
      · obtain ⟨i, hio, hik, hid⟩ := moreVertices_exists hmore
        obtain ⟨dist2, par2, heq, hlen⟩ := ih (relaxDist g c.1 known dist)
          (relaxPar g c.1 known dist par) (known.set c.1 true)
          (by rw [List.length_set]; exact hkl)
          (relaxDist_length g c.1 known dist) (by omega)
          (selectNext_isSome_of_cand
            (by rw [List.length_set, hkl]; exact hio) hik hid)
        exact ⟨dist2, par2, heq, hlen⟩

theorem dijkstraInitKnown_length (g : CGraph) (s : Nat) :
    (dijkstraInitKnown g s).length = g.order := by
  simp [dijkstraInitKnown]

theorem dijkstraInitDist_length (g : CGraph) (s : Nat) :
    (dijkstraInitDist g s).length = g.order := by
  simp [dijkstraInitDist]

theorem dijkstraInitKnown_getD {g : CGraph} {s i : Nat} (hi : i < g.order) :
    (dijkstraInitKnown g s).getD i true = decide (i = s) := by
  unfold dijkstraInitKnown
  exact getD_map_range _ hi _

theorem dijkstraInitDist_getD {g : CGraph} {s i : Nat} (hi : i < g.order) :
    (dijkstraInitDist g s).getD i 0 =
      if i = s ∨ g.adjAt s i = true then g.distAt s i else -1 := by
  unfold dijkstraInitDist
  exact getD_map_range _ hi _

/-- Claim C4 (amended): for every graph constructed from a valid square
matrix with non-negative entries and ZERO DIAGONAL and a bijective labeling,
and every registered label `v`, ShortestDistance(v, v) on the freshly
constructed graph returns distance 0 and the single-vertex route `[v]`.
(The zero-diagonal condition is forced: the algorithm initialises the source
estimate to the diagonal entry `D[v][v]` and never relaxes it, see
`claim_C4_counterexample`.) -/
theorem claim_C4 (m : List (List ℚ)) (labels : List Nat) (g : CGraph) (v iv : Nat)
    (hg : CGraph.construct m labels = .ok g)
    (hpos : ∀ i < m.length, ∀ j < m.length, entry m i j ≥ 0)
    (hdiag : ∀ i < m.length, entry m i i = 0)
    (hv : ExternalToInternal g v = some iv) :
    ∃ st', ShortestDistanceDefault g emptyState v v = .ok (0, [v], st') := by
  obtain ⟨hci, hord, hdm, hadj, hi2e, he2i, hll, hel, hn2, hrowsAll⟩ := construct_ok_inv hg
  have hv' : lookupAssoc (buildExtMap labels) v = some iv := by
    rw [← he2i]
    exact hv
  obtain ⟨hivl, hlab⟩ := buildExtMap_lookup labels v iv hv'
  have hivm : iv < m.length := by omega
  have hivo : iv < g.order := by omega
  have hdistAt : ∀ i j, i < m.length → j < m.length → g.distAt i j = entry m i j := by
    intro i j _ _
    unfold CGraph.distAt
    rw [hdm]
    rfl
  have hadjAt : ∀ j < m.length, j ≠ iv → g.adjAt iv j = true := by
    intro j hjm hne
    unfold CGraph.adjAt
    rw [hadj, getD_map_range _ hivm, getD_map_range _ hjm]
    rw [decide_eq_true_iff]
    exact ⟨hpos iv hivm j hjm, fun he => hne he.symm⟩
  -- a neighbour of iv, witnessing that the first selection succeeds
  have hex : ∃ j, j < m.length ∧ j ≠ iv := by
    by_cases hz : iv = 0
    · exact ⟨1, by omega, by omega⟩
    · exact ⟨0, by omega, fun he => hz he.symm⟩
  obtain ⟨j0, hj0m, hj0ne⟩ := hex
  have hj0o : j0 < g.order := by omega
  have hknj0 : (dijkstraInitKnown g iv).getD j0 true = false := by
    rw [dijkstraInitKnown_getD hj0o]
    exact decide_eq_false hj0ne
  have hdj0 : (dijkstraInitDist g iv).getD j0 0 ≠ -1 := by
    rw [dijkstraInitDist_getD hj0o, if_pos (Or.inr (hadjAt j0 hj0m hj0ne))]
    rw [hdistAt iv j0 hivm hj0m]
    have hge := hpos iv hivm j0 hj0m
    intro hcontr
    rw [hcontr] at hge
    exact absurd hge (by decide)
  have hsel : (selectNext (dijkstraInitKnown g iv) (dijkstraInitDist g iv)).isSome :=
    selectNext_isSome_of_cand
      (by rw [dijkstraInitKnown_length]; exact hj0o) hknj0 hdj0
  obtain ⟨dist', par', hloop, hdlen⟩ := dijkstraLoop_ok g
    ((dijkstraInitKnown g iv).count false) (dijkstraInitDist g iv)
    (dijkstraInitPar g iv) (dijkstraInitKnown g iv)
    (dijkstraInitKnown_length g iv) (dijkstraInitDist_length g iv) (by omega) hsel
  have hknown_iv : (dijkstraInitKnown g iv).getD iv true = true := by
    rw [dijkstraInitKnown_getD hivo]
    simp
  have hdiv : dist'.getD iv 0 = 0 := by
    have hpres := dijkstraLoop_preserves_known g
      ((dijkstraInitKnown g iv).count false) (dijkstraInitDist g iv)
      (dijkstraInitPar g iv) (dijkstraInitKnown g iv) iv hivo hknown_iv dist' par' hloop
    rw [hpres, dijkstraInitDist_getD hivo, if_pos (Or.inl rfl),
      hdistAt iv iv hivm hivm]
    exact hdiag iv hivm
  have hnle : ¬ (g.order ≤ iv) := by omega
  have hID : InternalDijkstra g emptyState iv =
      .ok (0, ⟨[par'], [dist'], [(iv, 0)]⟩) := by
    unfold InternalDijkstra
    rw [if_neg hnle]
    have hemp : lookupAssoc emptyState.startVertices iv = none := rfl
    rw [hemp, hloop]
    rfl
  have hRS : rootSelect g emptyState iv iv false =
      .ok (false, (⟨[par'], [dist'], [(iv, 0)]⟩ : DijkstraState)) := by
    have he1 : lookupAssoc emptyState.startVertices iv = none := rfl
    rw [rootSelect_fresh_end he1 he1, hID]
  have hl0 : lookupAssoc ([(iv, 0)] : List (Nat × Nat)) iv = some 0 := by
    show (if iv = iv then some 0 else lookupAssoc [] iv) = some 0
    rw [if_pos rfl]
  have hd0 : (([dist'] : List (List ℚ)).getD 0 []).get? iv = some 0 := by
    show dist'.get? iv = some 0
    rw [get?_eq_some_getD (by rw [hdlen]; exact hivo) 0, hdiv]
  have hWP : walkPhase g (⟨[par'], [dist'], [(iv, 0)]⟩ : DijkstraState) false iv iv =
      .ok (0, [iv]) :=
    walkPhase_false_of hl0 rfl (parentWalk_refl par' iv (g.order + 1) [iv]) hd0
  have hre : routeToExternal g [iv] = some [v] := by
    unfold routeToExternal
    rw [hi2e]
    have hlab' : labels[iv]? = some v := by
      rw [← List.get?_eq_getElem?]
      exact hlab
    simp [List.mapM, List.mapM.loop, hlab']
  exact ⟨⟨[par'], [dist'], [(iv, 0)]⟩,
    SD_of_parts hv hv (ISD_of_parts hRS hWP) hre⟩

/-- The complete 2-vertex graph with unit edge and zero diagonal. -/
def matK2 : List (List ℚ) := [[0, 1], [1, 0]]

/-- The graph constructed from `matK2` with labels 10, 20. -/
def graphK2 : CGraph := ((CGraph.construct matK2 [10, 20]).toOption).getD graphDefault

/-- Claim C4, witness: the amended statement instantiated at the complete
2-vertex graph with zero diagonal and label 10. -/
theorem claim_C4_witness :
    CGraph.construct matK2 [10, 20] = .ok graphK2 ∧
    (∀ i < matK2.length, ∀ j < matK2.length, entry matK2 i j ≥ 0) ∧
    (∀ i < matK2.length, entry matK2 i i = 0) ∧
    ExternalToInternal graphK2 10 = some 0 ∧
    (∃ st', ShortestDistanceDefault graphK2 emptyState 10 10 = .ok (0, [10], st')) :=
  ⟨by decide, by decide, by decide, by decide,
    claim_C4 matK2 [10, 20] graphK2 10 0 (by decide) (by decide) (by decide) (by decide)⟩

/-! ### Walks and shortest distances (specification layer for C8) -/

/-- A walk: a nonempty sequence of in-range vertices with consecutive
vertices adjacent. -/
def IsWalk (g : CGraph) (p : List Nat) : Prop :=
  p ≠ [] ∧ (∀ v ∈ p, v < g.order) ∧ List.Chain' (fun x y => g.adjAt x y = true) p

/-- Total weight of a walk: the sum of the direct distances along its
consecutive pairs. -/
def walkWeight (g : CGraph) : List Nat → ℚ
  | [] => 0
  | [_] => 0
  | x :: y :: rest => g.distAt x y + walkWeight g (y :: rest)

/-- A walk from `s` to `t`. -/
def WalkFromTo (g : CGraph) (s t : Nat) (p : List Nat) : Prop :=
  IsWalk g p ∧ p.head? = some s ∧ p.getLast? = some t

/-- `d` is attained by some walk from `s` to `t` and bounds every walk. -/
def IsShortestDist (g : CGraph) (s t : Nat) (d : ℚ) : Prop :=
  (∃ p, WalkFromTo g s t p ∧ walkWeight g p = d) ∧
  ∀ p, WalkFromTo g s t p → d ≤ walkWeight g p

/-- The graph facts guaranteed by a successful construction that the
algorithmic proofs need: adjacency implies a non-negative direct distance,
no self-loops, and all adjacency inside the vertex range. -/
structure GoodGraph (g : CGraph) : Prop where
  nonneg : ∀ i j, g.adjAt i j = true → 0 ≤ g.distAt i j
  irrefl : ∀ i, g.adjAt i i = false
  bound : ∀ i j, g.adjAt i j = true → i < g.order ∧ j < g.order

/-- Symmetry of both matrices, as delivered by a symmetric square input. -/
def SymGraph (g : CGraph) : Prop :=
  (∀ i j, g.adjAt i j = g.adjAt j i) ∧ (∀ i j, g.distAt i j = g.distAt j i)

/-- Normal form of an adjacency read on a constructed graph, for all index
pairs (out-of-range reads give `false`, matching the default rows). -/
theorem construct_adjAt {m : List (List ℚ)} {labels : List Nat} {g : CGraph}
    (hg : CGraph.construct m labels = .ok g) :
    ∀ i j, g.adjAt i j =
      (decide (i < m.length) && decide (j < m.length) &&
        decide (entry m i j ≥ 0 ∧ i ≠ j)) := by
  obtain ⟨-, -, -, hadj, -, -, -, -, -, -⟩ := construct_ok_inv hg
  intro i j
  unfold CGraph.adjAt
  rw [hadj]
  by_cases hi : i < m.length
  · rw [getD_map_range _ hi]
    by_cases hj : j < m.length
    · rw [getD_map_range _ hj]
      simp [hi, hj]
    · have hrow : ((List.range m.length).map fun j =>
          decide (entry m i j ≥ 0 ∧ i ≠ j)).getD j false = false :=
        List.getD_eq_default _ _
          (by simp only [List.length_map, List.length_range]; omega)
      rw [hrow]
      simp [hj]
  · have hrow : ((List.range m.length).map fun i => (List.range m.length).map
        fun j => decide (entry m i j ≥ 0 ∧ i ≠ j)).getD i [] = [] :=
      List.getD_eq_default _ _
        (by simp only [List.length_map, List.length_range]; omega)
    rw [hrow]
    simp [hi]

/-- A distance read on a constructed graph is a raw-entry read. -/
theorem construct_distAt {m : List (List ℚ)} {labels : List Nat} {g : CGraph}
    (hg : CGraph.construct m labels = .ok g) :
    ∀ i j, g.distAt i j = entry m i j := by
  obtain ⟨-, -, hdm, -, -, -, -, -, -, -⟩ := construct_ok_inv hg
  intro i j
  unfold CGraph.distAt entry
  rw [hdm]

/-- A successful construction passed the `unsigned int` size bound. -/
theorem construct_le_uintMax {m : List (List ℚ)} {labels : List Nat} {g : CGraph}
    (hg : CGraph.construct m labels = .ok g) : m.length ≤ uintMax := by
  obtain ⟨hci, -⟩ := construct_ok_inv hg
  unfold CheckInput_DistMat at hci
  by_cases hbig : m.length > uintMax
  · rw [if_pos hbig] at hci
    cases hci
  · omega

/-- On a square matrix, pointwise symmetry of the in-range entries extends to
all index pairs (out-of-range reads default to `0` on both sides). -/
theorem entry_sym_all {m : List (List ℚ)}
    (hrows : ∀ i < m.length, rowLen m i = m.length)
    (hsym : ∀ i < m.length, ∀ j < m.length, entry m i j = entry m j i) :
    ∀ i j, entry m i j = entry m j i := by
  have hzero : ∀ i j, m.length ≤ j → entry m i j = 0 := by
    intro i j hj
    unfold entry
    by_cases hi : i < m.length
    · exact List.getD_eq_default _ _
        (by have := hrows i hi; unfold rowLen at this; omega)
    · have hrow : m.getD i [] = [] := List.getD_eq_default _ _ (by omega)
      rw [hrow]
      rfl
  have hzero2 : ∀ i j, m.length ≤ i → entry m i j = 0 := by
    intro i j hi
    unfold entry
    have hrow : m.getD i [] = [] := List.getD_eq_default _ _ (by omega)
    rw [hrow]
    rfl
  intro i j
  by_cases hi : i < m.length
  · by_cases hj : j < m.length
    · exact hsym i hi j hj
    · rw [hzero i j (by omega), hzero2 j i (by omega)]
  · rw [hzero2 i j (by omega), hzero j i (by omega)]

theorem construct_good {m : List (List ℚ)} {labels : List Nat} {g : CGraph}
    (hg : CGraph.construct m labels = .ok g) : GoodGraph g := by
  have hadj := construct_adjAt hg
  have hdist := construct_distAt hg
  have hord : g.order = m.length := (construct_ok_inv hg).2.1
  refine ⟨?_, ?_, ?_⟩
  · intro i j h
    rw [hadj i j] at h
    simp only [Bool.and_eq_true, decide_eq_true_iff] at h
    rw [hdist i j]
    exact h.2.1
  · intro i
    rw [hadj i i]
    simp
  · intro i j h
    rw [hadj i j] at h
    simp only [Bool.and_eq_true, decide_eq_true_iff] at h
    rw [hord]
    exact ⟨h.1.1, h.1.2⟩

theorem construct_sym {m : List (List ℚ)} {labels : List Nat} {g : CGraph}
    (hg : CGraph.construct m labels = .ok g)
    (hsym : ∀ i < m.length, ∀ j < m.length, entry m i j = entry m j i) :
    SymGraph g := by
  have hadj := construct_adjAt hg
  have hdist := construct_distAt hg
  have hrows : ∀ i < m.length, rowLen m i = m.length := (construct_ok_inv hg).2.2.2.2.2.2.2.2.2
  have hall := entry_sym_all hrows hsym
  constructor
  · intro i j
    rw [hadj i j, hadj j i, hall i j]
    by_cases hi : i < m.length <;> by_cases hj : j < m.length <;>
      simp [hi, hj, ne_comm, Bool.and_comm]
  · intro i j
    rw [hdist i j, hdist j i]
    exact hall i j

/-- Appending one more vertex to a walk adds the closing edge's weight. -/
theorem walkWeight_concat (g : CGraph) :
    ∀ (p : List Nat) (k : Nat), p.getLast? = some k → ∀ y : Nat,
      walkWeight g (p ++ [y]) = walkWeight g p + g.distAt k y := by
  intro p
  induction p with
  | nil =>
    intro k hk
    cases hk
  | cons a t ih =>
    intro k hk y
    cases t with
    | nil =>
      rw [List.getLast?_singleton] at hk
      cases hk
      show walkWeight g [a, y] = walkWeight g [a] + g.distAt a y
      simp only [walkWeight]
      ring
    | cons b t2 =>
      rw [List.getLast?_cons_cons] at hk
      have hstep : walkWeight g ((a :: b :: t2) ++ [y]) =
          g.distAt a b + walkWeight g ((b :: t2) ++ [y]) := rfl
      rw [hstep, ih k hk y]
      show _ = g.distAt a b + walkWeight g (b :: t2) + g.distAt k y
      ring

/-- Splitting a walk's weight at an interior vertex. -/
theorem walkWeight_split (g : CGraph) :
    ∀ (xs : List Nat) (y : Nat) (ys : List Nat),
      walkWeight g (xs ++ y :: ys) =
        walkWeight g (xs ++ [y]) + walkWeight g (y :: ys) := by
  intro xs
  induction xs with
  | nil =>
    intro y ys
    show walkWeight g (y :: ys) = walkWeight g [y] + walkWeight g (y :: ys)
    simp only [walkWeight]
    ring
  | cons a t ih =>
    intro y ys
    cases t with
    | nil =>
      show walkWeight g (a :: y :: ys) = walkWeight g [a, y] + walkWeight g (y :: ys)
      simp only [walkWeight]
      ring
    | cons b t2 =>
      have hih := ih y ys
      simp only [List.cons_append] at hih ⊢
      simp only [walkWeight]
      rw [hih]
      ring

/-- Every walk in a graph with non-negative edge weights has non-negative
weight. -/
theorem walkWeight_nonneg (g : CGraph) (hgood : GoodGraph g) :
    ∀ p : List Nat, List.Chain' (fun x y => g.adjAt x y = true) p →
      0 ≤ walkWeight g p := by
  intro p
  induction p with
  | nil =>
    intro _
    exact le_refl 0
  | cons a t ih =>
    intro h
    cases t with
    | nil =>
      exact le_refl 0
    | cons b t2 =>
      rw [List.chain'_cons] at h
      have h1 := hgood.nonneg a b h.1
      have h2 := ih h.2
      show 0 ≤ g.distAt a b + walkWeight g (b :: t2)
      linarith

/-- On a symmetric graph, reversing a walk preserves its weight. -/
theorem walkWeight_reverse (g : CGraph) (hsym : SymGraph g) :
    ∀ p : List Nat, walkWeight g p.reverse = walkWeight g p := by
  intro p
  induction p with
  | nil => rfl
  | cons a t ih =>
    cases t with
    | nil => rfl
    | cons b t2 =>
      rw [List.reverse_cons]
      have hlast : (b :: t2).reverse.getLast? = some b := by
        rw [List.getLast?_reverse]
        rfl
      rw [walkWeight_concat g _ b hlast a, ih]
      show walkWeight g (b :: t2) + g.distAt b a =
        g.distAt a b + walkWeight g (b :: t2)
      rw [hsym.2 b a]
      ring

/-- On a symmetric graph, the reversal of a walk from `s` to `t` is a walk
from `t` to `s`. -/
theorem WalkFromTo_reverse {g : CGraph} (hsym : SymGraph g) {s t : Nat}
    {p : List Nat} (h : WalkFromTo g s t p) : WalkFromTo g t s p.reverse := by
  obtain ⟨⟨hne, hmem, hchain⟩, hhead, hlast⟩ := h
  refine ⟨⟨?_, ?_, ?_⟩, ?_, ?_⟩
  · simp [hne]
  · intro v hv
    exact hmem v (List.mem_reverse.mp hv)
  · rw [List.chain'_reverse]
    refine List.Chain'.imp ?_ hchain
    intro x y hxy
    show g.adjAt y x = true
    rw [← hsym.1 x y]
    exact hxy
  · rw [List.head?_reverse]
    exact hlast
  · rw [List.getLast?_reverse]
    exact hhead

/-- The shortest distance between a fixed pair of vertices is unique. -/
theorem IsShortestDist_unique {g : CGraph} {s t : Nat} {d1 d2 : ℚ}
    (h1 : IsShortestDist g s t d1) (h2 : IsShortestDist g s t d2) : d1 = d2 := by
  obtain ⟨⟨p1, hw1, he1⟩, hlb1⟩ := h1
  obtain ⟨⟨p2, hw2, he2⟩, hlb2⟩ := h2
  have a1 := hlb1 p2 hw2
  have a2 := hlb2 p1 hw1
  rw [he2] at a1
  rw [he1] at a2
  linarith

/-- On a symmetric graph, shortest distances are symmetric in the endpoints. -/
theorem IsShortestDist_symm {g : CGraph} (hsym : SymGraph g) {s t : Nat} {d : ℚ}
    (h : IsShortestDist g s t d) : IsShortestDist g t s d := by
  obtain ⟨⟨p, hw, he⟩, hlb⟩ := h
  refine ⟨⟨p.reverse, WalkFromTo_reverse hsym hw, ?_⟩, ?_⟩
  · rw [walkWeight_reverse g hsym]
    exact he
  · intro q hq
    have hb := hlb q.reverse (WalkFromTo_reverse hsym hq)
    rw [walkWeight_reverse g hsym] at hb
    exact hb

/-- The vertices eligible for selection: unconfirmed, with an estimate. -/
def selCand (known : List Bool) (dist : List ℚ) (i : Nat) : Prop :=
  known.getD i true = false ∧ dist.getD i 0 ≠ -1

/-- Full specification of the selection scan: the result is an eligible
vertex paired with its estimate, minimal among the scanned candidates and the
accumulator. -/
theorem selectNextAux_min (known : List Bool) (dist : List ℚ) :
    ∀ (ixs : List Nat) (acc : Option (Nat × ℚ)) (c : Nat × ℚ),
      (∀ p, acc = some p → selCand known dist p.1 ∧ p.2 = dist.getD p.1 0) →
      selectNextAux known dist ixs acc = some c →
      (selCand known dist c.1 ∧ c.2 = dist.getD c.1 0) ∧
      (∀ i ∈ ixs, selCand known dist i → c.2 ≤ dist.getD i 0) ∧
      (∀ p, acc = some p → c.2 ≤ p.2) := by
  intro ixs
  induction ixs with
  | nil =>
    intro acc c hacc h
    replace h : acc = some c := h
    refine ⟨hacc c h, ?_, ?_⟩
    · intro i hi
      cases hi
    · intro p hp
      rw [h] at hp
      cases hp
      exact le_refl _
  | cons j rest ih =>
    intro acc c hacc h
    rw [selectNextAux] at h
    by_cases hcond : ((!(known.getD j true)) && (decide (dist.getD j 0 ≠ -1)) &&
        (Option.all (fun p => decide (dist.getD j 0 < p.2)) acc)) = true
    · rw [if_pos hcond] at h
      simp only [Bool.and_eq_true, Bool.not_eq_true', decide_eq_true_iff] at hcond
      have hnew : ∀ p, (some (j, dist.getD j 0) : Option (Nat × ℚ)) = some p →
          selCand known dist p.1 ∧ p.2 = dist.getD p.1 0 := by
        intro p hp
        cases hp
        exact ⟨⟨hcond.1.1, hcond.1.2⟩, rfl⟩
      obtain ⟨hc, hrest, haccle⟩ := ih _ c hnew h
      refine ⟨hc, ?_, ?_⟩
      · intro i hi hic
        rcases List.mem_cons.mp hi with rfl | hmem
        · exact haccle _ rfl
        · exact hrest i hmem hic
      · intro p hp
        have h1 : c.2 ≤ dist.getD j 0 := haccle _ rfl
        have h2 : dist.getD j 0 < p.2 := by
          have hall := hcond.2
          rw [hp] at hall
          simp only [Option.all_some, decide_eq_true_iff] at hall
          exact hall
        linarith
    · rw [if_neg hcond] at h
      obtain ⟨hc, hrest, haccle⟩ := ih acc c hacc h
      refine ⟨hc, ?_, haccle⟩
      intro i hi hic
      rcases List.mem_cons.mp hi with rfl | hmem
      · obtain ⟨hk1, hd1⟩ := hic
        rcases hqacc : acc with _ | p
        · exfalso
          apply hcond
          rw [hqacc]
          simp only [hk1, Bool.not_false, Bool.true_and, Option.all_none,
            Bool.and_true, decide_eq_true_iff]
          exact hd1
        · have hple : p.2 ≤ dist.getD i 0 := by
            by_contra hlt
            push_neg at hlt
            apply hcond
            rw [hqacc]
            simp only [hk1, Bool.not_false, Bool.true_and, Option.all_some,
              Bool.and_eq_true, decide_eq_true_iff]
            exact ⟨hd1, hlt⟩
          have := haccle p hqacc
          linarith
      · exact hrest i hmem hic

/-- The selected vertex is an eligible candidate carrying its own estimate,
minimal among all eligible candidates. -/
theorem selectNext_min {known : List Bool} {dist : List ℚ} {c : Nat × ℚ}
    (h : selectNext known dist = some c) :
    (selCand known dist c.1 ∧ c.2 = dist.getD c.1 0) ∧
    ∀ i, selCand known dist i → c.2 ≤ dist.getD i 0 := by
  obtain ⟨hc, hall, -⟩ := selectNextAux_min known dist (List.range known.length)
    none c (by intro p hp; cases hp) h
  refine ⟨hc, ?_⟩
  intro i hi
  obtain ⟨hk, hd⟩ := hi
  exact hall i (List.mem_range.mpr (lt_length_of_getD_false hk)) ⟨hk, hd⟩

/-- The head of the dropped suffix fails the predicate. -/
theorem dropWhile_head_false {p : Nat → Bool} {l : List Nat} {x : Nat}
    {xs : List Nat} (h : l.dropWhile p = x :: xs) : p x = false := by
  have hne : l.dropWhile p ≠ [] := by
    rw [h]
    exact List.cons_ne_nil x xs
  have h2 := List.head_dropWhile_not p l hne
  have h3 : (l.dropWhile p).head hne = x := by
    rw [List.head_eq_iff_head?_eq_some, h]
    rfl
  rw [h3] at h2
  exact h2

/-- The last element reported by `getLast?` is a member of the list. -/
theorem mem_of_getLast?_eq {l : List Nat} {a : Nat} (h : l.getLast? = some a) :
    a ∈ l := by
  obtain ⟨hne, hxe⟩ := List.mem_getLast?_eq_getLast (show a ∈ l.getLast? from h)
  rw [hxe]
  exact List.getLast_mem hne

/-- The effective confirmed distance of a vertex: the start vertex counts as
`0` (its stored estimate is the raw diagonal entry, which the algorithm never
reads), every other confirmed vertex counts as its stored estimate. -/
def keyd (s : Nat) (dist : List ℚ) (k : Nat) : ℚ :=
  if k = s then 0 else dist.getD k 0

/-- The Dijkstra loop invariant: sizes; the start vertex is confirmed; every
other confirmed vertex stores its true shortest distance from the start;
every estimate of an unconfirmed vertex is attained by an actual walk; every
unconfirmed vertex adjacent to a confirmed one has an estimate no worse than
going through that confirmed neighbour; and an unconfirmed vertex without an
estimate still has the sentinel parent. -/
structure DijkInv (g : CGraph) (s : Nat) (dist : List ℚ) (par : List Nat)
    (known : List Bool) : Prop where
  hdl : dist.length = g.order
  hpl : par.length = g.order
  hkl : known.length = g.order
  hso : s < g.order
  hks : known.getD s true = true
  hshort : ∀ v, v < g.order → v ≠ s → known.getD v true = true →
    IsShortestDist g s v (dist.getD v 0)
  hattain : ∀ v, v < g.order → known.getD v true = false → dist.getD v 0 ≠ -1 →
    ∃ p, WalkFromTo g s v p ∧ walkWeight g p = dist.getD v 0
  hmin : ∀ v, v < g.order → known.getD v true = false →
    ∀ k, k < g.order → known.getD k true = true → g.adjAt k v = true →
    dist.getD v 0 ≠ -1 ∧ dist.getD v 0 ≤ keyd s dist k + g.distAt k v
  hpar : ∀ v, v < g.order → v ≠ s → dist.getD v 0 = -1 → par.getD v 0 = uintMax

theorem dijkstraInitPar_length (g : CGraph) (s : Nat) :
    (dijkstraInitPar g s).length = g.order := by
  simp [dijkstraInitPar]

theorem dijkstraInitPar_getD {g : CGraph} {s i : Nat} (hi : i < g.order) :
    (dijkstraInitPar g s).getD i 0 =
      if i = s ∨ g.adjAt s i = true then s else uintMax := by
  unfold dijkstraInitPar
  exact getD_map_range _ hi _

/-- The initial state of `InternalDijkstra` satisfies the loop invariant. -/
theorem dijkstraInit_inv {g : CGraph} (hgood : GoodGraph g) {s : Nat}
    (hso : s < g.order) :
    DijkInv g s (dijkstraInitDist g s) (dijkstraInitPar g s)
      (dijkstraInitKnown g s) := by
  refine ⟨dijkstraInitDist_length g s, dijkstraInitPar_length g s,
    dijkstraInitKnown_length g s, hso, ?_, ?_, ?_, ?_, ?_⟩
  · rw [dijkstraInitKnown_getD hso]
    simp
  · intro v hv hvs hk
    rw [dijkstraInitKnown_getD hv] at hk
    rw [decide_eq_true_iff] at hk
    exact absurd hk hvs
  · intro v hv hk hd
    rw [dijkstraInitKnown_getD hv] at hk
    have hvs : v ≠ s := by
      intro he
      rw [he] at hk
      simp at hk
    rw [dijkstraInitDist_getD hv] at hd ⊢
    by_cases hadj : g.adjAt s v = true
    · rw [if_pos (Or.inr hadj)] at hd ⊢
      refine ⟨[s, v], ⟨⟨List.cons_ne_nil s [v], ?_, ?_⟩, rfl, rfl⟩, ?_⟩
      · intro x hx
        rcases List.mem_cons.mp hx with rfl | hx2
        · exact hso
        · rcases List.mem_cons.mp hx2 with rfl | hx3
          · exact hv
          · cases hx3
      · rw [List.chain'_cons]
        exact ⟨hadj, List.chain'_singleton v⟩
      · show g.distAt s v + walkWeight g [v] = g.distAt s v
        show g.distAt s v + 0 = g.distAt s v
        ring
    · rw [if_neg ?hc] at hd
      case hc =>
        intro hor
        rcases hor with he | ha
        · exact hvs he
        · exact hadj ha
      exact absurd rfl hd
  · intro v hv hk k hkv hkk hadj
    rw [dijkstraInitKnown_getD hv] at hk
    have hvs : v ≠ s := by
      intro he
      rw [he] at hk
      simp at hk
    rw [dijkstraInitKnown_getD hkv, decide_eq_true_iff] at hkk
    subst hkk
    have hnn := hgood.nonneg k v hadj
    rw [dijkstraInitDist_getD hv, if_pos (Or.inr hadj)]
    constructor
    · intro he
      rw [he] at hnn
      linarith
    · unfold keyd
      rw [if_pos rfl]
      have hdd : (dijkstraInitDist g k).getD k 0 = (dijkstraInitDist g k).getD k 0 := rfl
      linarith
  · intro v hv hvs hd
    rw [dijkstraInitDist_getD hv] at hd
    rw [dijkstraInitPar_getD hv]
    by_cases hor : v = s ∨ g.adjAt s v = true
    · exfalso
      rw [if_pos hor] at hd
      rcases hor with he | ha
      · exact hvs he
      · have := hgood.nonneg s v ha
        rw [hd] at this
        linarith
    · rw [if_neg hor]

/-- The classical exchange argument: when the scan selects a vertex, that
vertex's current estimate is already its true shortest distance (any walk to
it must first leave the confirmed set, paying at least the selected
estimate). -/
theorem selected_shortest {g : CGraph} (hgood : GoodGraph g) {s : Nat}
    {dist : List ℚ} {par : List Nat} {known : List Bool}
    (inv : DijkInv g s dist par known) {c : Nat × ℚ}
    (hsel : selectNext known dist = some c) :
    IsShortestDist g s c.1 (dist.getD c.1 0) := by
  obtain ⟨⟨⟨hkc, hdc⟩, hc2⟩, hmin2⟩ := selectNext_min hsel
  have hco : c.1 < g.order := by
    have h1 := lt_length_of_getD_false hkc
    have h2 := inv.hkl
    omega
  refine ⟨inv.hattain c.1 hco hkc hdc, ?_⟩
  intro p hp
  have hphead := hp.2.1
  obtain ⟨t, rfl⟩ : ∃ t, p = s :: t := by
    rcases p with _ | ⟨a, t⟩
    · cases hphead
    · rw [List.head?_cons] at hphead
      injection hphead with ha
      exact ⟨t, by rw [ha]⟩
  obtain ⟨⟨hpne, hpmem, hpchain⟩, -, hplast⟩ := hp
  have hcmem : c.1 ∈ s :: t := mem_of_getLast?_eq hplast
  have hdropne : (s :: t).dropWhile (fun v => known.getD v true) ≠ [] := by
    intro hnil
    rw [List.dropWhile_eq_nil_iff] at hnil
    have h2 : known.getD c.1 true = true := hnil c.1 hcmem
    rw [hkc] at h2
    exact absurd h2 (by decide)
  obtain ⟨u, suf, hdrop⟩ : ∃ u suf,
      (s :: t).dropWhile (fun v => known.getD v true) = u :: suf := by
    rcases hd : (s :: t).dropWhile (fun v => known.getD v true) with _ | ⟨u, suf⟩
    · exact absurd hd hdropne
    · exact ⟨u, suf, rfl⟩
  have hu_unknown : known.getD u true = false := dropWhile_head_false hdrop
  have hsplit : (s :: t).takeWhile (fun v => known.getD v true) ++ u :: suf
      = s :: t := by
    rw [← hdrop]
    exact List.takeWhile_append_dropWhile _ _
  have hpre_eq : (s :: t).takeWhile (fun v => known.getD v true)
      = s :: t.takeWhile (fun v => known.getD v true) :=
    List.takeWhile_cons_of_pos inv.hks
  obtain ⟨pre, hpre_def⟩ : ∃ pre,
      (s :: t).takeWhile (fun v => known.getD v true) = pre := ⟨_, rfl⟩
  rw [hpre_def] at hsplit hpre_eq
  have hpre_ne : pre ≠ [] := by
    rw [hpre_eq]
    exact List.cons_ne_nil _ _
  have hpre_head : pre.head? = some s := by
    rw [hpre_eq]
    rfl
  have hpre_known : ∀ x ∈ pre, known.getD x true = true := by
    intro x hx
    rw [← hpre_def] at hx
    exact @List.mem_takeWhile_imp Nat (fun v => known.getD v true) (s :: t) x hx
  obtain ⟨k, hk_last⟩ : ∃ k, pre.getLast? = some k :=
    ⟨pre.getLast hpre_ne, List.getLast?_eq_getLast pre hpre_ne⟩
  have hk_mem_pre : k ∈ pre := mem_of_getLast?_eq hk_last
  have hk_known : known.getD k true = true := hpre_known k hk_mem_pre
  have hk_ord : k < g.order := by
    apply hpmem
    rw [← hsplit]
    exact List.mem_append_left _ hk_mem_pre
  have hu_ord : u < g.order := by
    apply hpmem
    rw [← hsplit]
    exact List.mem_append_right _ (List.mem_cons_self u suf)
  have hchain2 : List.Chain' (fun x y => g.adjAt x y = true) (pre ++ u :: suf) := by
    rw [hsplit]
    exact hpchain
  rw [List.chain'_append] at hchain2
  obtain ⟨hchain_pre, hchain_suf, hconn⟩ := hchain2
  have hadj_ku : g.adjAt k u = true := hconn k hk_last u rfl
  obtain ⟨hdu_ne, hdu_le⟩ := inv.hmin u hu_ord hu_unknown k hk_ord hk_known hadj_ku
  have hw_pre_lb : keyd s dist k ≤ walkWeight g pre := by
    by_cases hks2 : k = s
    · subst hks2
      unfold keyd
      rw [if_pos rfl]
      exact walkWeight_nonneg g hgood pre hchain_pre
    · have hsk := inv.hshort k hk_ord hks2 hk_known
      have hwft : WalkFromTo g s k pre := by
        refine ⟨⟨hpre_ne, ?_, hchain_pre⟩, hpre_head, hk_last⟩
        intro x hx
        apply hpmem
        rw [← hsplit]
        exact List.mem_append_left _ hx
      have hlb := hsk.2 pre hwft
      unfold keyd
      rw [if_neg hks2]
      exact hlb
  have hw_split2 : walkWeight g (s :: t) =
      walkWeight g (pre ++ [u]) + walkWeight g (u :: suf) := by
    rw [← hsplit]
    exact walkWeight_split g pre u suf
  have hw_concat : walkWeight g (pre ++ [u]) = walkWeight g pre + g.distAt k u :=
    walkWeight_concat g pre k hk_last u
  have hsuf_nn : 0 ≤ walkWeight g (u :: suf) :=
    walkWeight_nonneg g hgood _ hchain_suf
  have hcu : dist.getD c.1 0 ≤ dist.getD u 0 := by
    have hle := hmin2 u ⟨hu_unknown, hdu_ne⟩
    rw [hc2] at hle
    exact hle
  linarith

theorem relaxPar_length (g : CGraph) (c : Nat) (known : List Bool)
    (dist : List ℚ) (par : List Nat) :
    (relaxPar g c known dist par).length = g.order := by
  simp [relaxPar]

theorem relaxDist_getD {g : CGraph} {c : Nat} {known : List Bool}
    {dist : List ℚ} {i : Nat} (hi : i < g.order) :
    (relaxDist g c known dist).getD i 0 =
      if relaxCond g c i known dist then dist.getD c 0 + g.distAt c i
      else dist.getD i 0 := by
  unfold relaxDist
  exact getD_map_range _ hi _

theorem relaxPar_getD {g : CGraph} {c : Nat} {known : List Bool}
    {dist : List ℚ} {par : List Nat} {i : Nat} (hi : i < g.order) :
    (relaxPar g c known dist par).getD i 0 =
      if relaxCond g c i known dist then c else par.getD i 0 := by
  unfold relaxPar
  exact getD_map_range _ hi _

theorem getD_set_self_true {l : List Bool} {c : Nat} (hc : c < l.length) :
    (l.set c true).getD c true = true := by
  rw [List.getD_eq_getElem?_getD, List.getElem?_set_self (by omega)]
  rfl

theorem getD_set_ne_bool {l : List Bool} {c i : Nat} (h : c ≠ i) :
    (l.set c true).getD i true = l.getD i true := by
  rw [List.getD_eq_getElem?_getD, List.getElem?_set_ne h,
    ← List.getD_eq_getElem?_getD]

/-- One loop iteration preserves the invariant: the selected vertex is
confirmed at its (now final) estimate and every frontier estimate is relaxed
through it. -/
theorem dijkstra_step_inv {g : CGraph} (hgood : GoodGraph g) {s : Nat}
    {dist : List ℚ} {par : List Nat} {known : List Bool}
    (inv : DijkInv g s dist par known) {c : Nat × ℚ}
    (hsel : selectNext known dist = some c) :
    DijkInv g s (relaxDist g c.1 known dist) (relaxPar g c.1 known dist par)
      (known.set c.1 true) := by
  have hkc : known.getD c.1 true = false := selectNext_some_false hsel
  have hco : c.1 < g.order := by
    have h1 := lt_length_of_getD_false hkc
    have h2 := inv.hkl
    omega
  have hcs : c.1 ≠ s := by
    intro he
    rw [he, inv.hks] at hkc
    exact absurd hkc (by decide)
  have hcshort := selected_shortest hgood inv hsel
  have hc_nn : 0 ≤ dist.getD c.1 0 := by
    obtain ⟨p0, hw0, he0⟩ := hcshort.1
    have hnn := walkWeight_nonneg g hgood p0 hw0.1.2.2
    linarith
  have hckl : c.1 < known.length := by
    have h2 := inv.hkl
    omega
  -- the estimate of the selected vertex is untouched by the relaxation
  have hdist_c : (relaxDist g c.1 known dist).getD c.1 0 = dist.getD c.1 0 := by
    rw [relaxDist_getD hco, if_neg]
    intro hrc
    have h2 := hrc.2.1
    rw [hgood.irrefl c.1] at h2
    exact absurd h2 (by decide)
  -- confirmed vertices keep their estimates
  have hdist_known : ∀ v, v < g.order → known.getD v true = true →
      (relaxDist g c.1 known dist).getD v 0 = dist.getD v 0 := by
    intro v hv hkv
    exact relaxDist_getD_known hv hkv
  -- the effective key of every newly confirmed vertex is unchanged
  have hkeyd : ∀ k, k < g.order → (known.set c.1 true).getD k true = true →
      keyd s (relaxDist g c.1 known dist) k = keyd s dist k := by
    intro k hk hkk
    unfold keyd
    by_cases hks2 : k = s
    · rw [if_pos hks2, if_pos hks2]
    · rw [if_neg hks2, if_neg hks2]
      by_cases hkc2 : k = c.1
      · rw [hkc2]
        exact hdist_c
      · rw [getD_set_ne_bool (fun he => hkc2 he.symm)] at hkk
        exact hdist_known k hk hkk
  refine ⟨relaxDist_length g c.1 known dist, relaxPar_length g c.1 known dist par,
    by rw [List.length_set]; exact inv.hkl, inv.hso, getD_set_true inv.hks,
    ?_, ?_, ?_, ?_⟩
  · -- newly confirmed vertices store shortest distances
    intro v hv hvs hkv
    by_cases hvc : v = c.1
    · subst hvc
      rw [hdist_c]
      exact hcshort
    · rw [getD_set_ne_bool (fun he => hvc he.symm)] at hkv
      rw [hdist_known v hv hkv]
      exact inv.hshort v hv hvs hkv
  · -- frontier estimates are attained by actual walks
    intro v hv hkv hdv
    have hvc : v ≠ c.1 := by
      intro he
      rw [he, getD_set_self_true hckl] at hkv
      exact absurd hkv (by decide)
    rw [getD_set_ne_bool (fun he => hvc he.symm)] at hkv
    rw [relaxDist_getD hv] at hdv ⊢
    by_cases hrc : relaxCond g c.1 v known dist
    · rw [if_pos hrc] at hdv ⊢
      obtain ⟨p0, hw0, he0⟩ := hcshort.1
      have hphead := hw0.2.1
      obtain ⟨t0, rfl⟩ : ∃ t0, p0 = s :: t0 := by
        rcases p0 with _ | ⟨a, t0⟩
        · cases hphead
        · rw [List.head?_cons] at hphead
          injection hphead with ha
          exact ⟨t0, by rw [ha]⟩
      refine ⟨(s :: t0) ++ [v], ⟨⟨by simp, ?_, ?_⟩, ?_, ?_⟩, ?_⟩
      · intro x hx
        rcases List.mem_append.mp hx with h1 | h2
        · exact hw0.1.2.1 x h1
        · rw [List.mem_singleton] at h2
          rw [h2]
          exact hv
      · rw [List.chain'_append]
        refine ⟨hw0.1.2.2, List.chain'_singleton v, ?_⟩
        intro x hx y hy
        rw [hw0.2.2] at hx
        injection hx with hx2
        injection hy with hy2
        rw [← hx2, ← hy2]
        exact hrc.2.1
      · rfl
      · exact List.getLast?_concat _
      · rw [walkWeight_concat g (s :: t0) c.1 hw0.2.2 v, he0]
    · rw [if_neg hrc] at hdv ⊢
      exact inv.hattain v hv hkv hdv
  · -- the frontier bound through every confirmed neighbour
    intro v hv hkv k hk hkk hadj
    have hvc : v ≠ c.1 := by
      intro he
      rw [he, getD_set_self_true hckl] at hkv
      exact absurd hkv (by decide)
    rw [getD_set_ne_bool (fun he => hvc he.symm)] at hkv
    rw [hkeyd k hk hkk]
    rw [relaxDist_getD hv]
    by_cases hkc2 : k = c.1
    · -- the newly confirmed vertex itself as the confirmed neighbour
      subst hkc2
      have hwnn : 0 ≤ g.distAt c.1 v := hgood.nonneg c.1 v hadj
      have hkeyd_c : keyd s dist c.1 = dist.getD c.1 0 := by
        unfold keyd
        rw [if_neg hcs]
      by_cases hrc : relaxCond g c.1 v known dist
      · rw [if_pos hrc, hkeyd_c]
        constructor
        · intro he
          linarith [hc_nn, hwnn, he.symm.le, he.ge]
        · exact le_refl _
      · have hnot : ¬(dist.getD v 0 = -1 ∨
            dist.getD v 0 > dist.getD c.1 0 + g.distAt c.1 v) := by
          intro hor
          exact hrc ⟨hkv, hadj, hor⟩
        push_neg at hnot
        rw [if_neg hrc, hkeyd_c]
        exact ⟨hnot.1, hnot.2⟩
    · rw [getD_set_ne_bool (fun he => hkc2 he.symm)] at hkk
      obtain ⟨hold_ne, hold_le⟩ := inv.hmin v hv hkv k hk hkk hadj
      by_cases hrc : relaxCond g c.1 v known dist
      · rw [if_pos hrc]
        have hwnn : 0 ≤ g.distAt c.1 v := hgood.nonneg c.1 v hrc.2.1
        constructor
        · intro he
          linarith [hc_nn, hwnn, he.symm.le, he.ge]
        · rcases hrc.2.2 with he | hgt
          · exact absurd he hold_ne
          · linarith
      · rw [if_neg hrc]
        exact ⟨hold_ne, hold_le⟩
  · -- unconfirmed vertices without an estimate keep the sentinel parent
    intro v hv hvs hdv
    rw [relaxDist_getD hv] at hdv
    rw [relaxPar_getD hv]
    by_cases hrc : relaxCond g c.1 v known dist
    · exfalso
      rw [if_pos hrc] at hdv
      have hwnn : 0 ≤ g.distAt c.1 v := hgood.nonneg c.1 v hrc.2.1
      linarith [hc_nn, hwnn, hdv.le, hdv.ge]
    · rw [if_neg hrc] at hdv
      rw [if_neg hrc]
      exact inv.hpar v hv hvs hdv

/-- When the end-of-iteration check finds no unconfirmed vertex with an
estimate, every vertex holding an estimate is confirmed, so by the invariant
every such vertex (other than the start) stores its shortest distance. -/
theorem exit_correct {g : CGraph} {s : Nat}
    {dist : List ℚ} {par : List Nat} {known : List Bool}
    (inv : DijkInv g s dist par known)
    (hmore : moreVertices g.order known dist = false) :
    dist.length = g.order ∧ par.length = g.order ∧
    (∀ v, v < g.order → v ≠ s → dist.getD v 0 ≠ -1 →
      IsShortestDist g s v (dist.getD v 0)) ∧
    (∀ v, v < g.order → v ≠ s → dist.getD v 0 = -1 →
      par.getD v 0 = uintMax) := by
  refine ⟨inv.hdl, inv.hpl, ?_, inv.hpar⟩
  intro v hv hvs hdv
  have hkv : known.getD v true = true := by
    by_contra hfalse
    rw [Bool.not_eq_true] at hfalse
    have htrue : moreVertices g.order known dist = true := by
      unfold moreVertices
      rw [List.any_eq_true]
      refine ⟨v, List.mem_range.mpr hv, ?_⟩
      rw [hfalse]
      simp only [Bool.not_false, Bool.true_and, decide_eq_true_iff]
      exact hdv
    rw [htrue] at hmore
    exact absurd hmore (by decide)
  exact inv.hshort v hv hvs hkv

/-- Full loop correctness: a successful run from any state satisfying the
invariant returns vectors in which every estimate away from the start is the
true shortest distance from the start, and every vertex left without an
estimate keeps the sentinel parent. -/
theorem dijkstraLoop_correct {g : CGraph} (hgood : GoodGraph g) {s : Nat} :
    ∀ (fuel : Nat) (dist : List ℚ) (par : List Nat) (known : List Bool)
      (dist' : List ℚ) (par' : List Nat),
      DijkInv g s dist par known →
      dijkstraLoop g fuel dist par known = .ok (dist', par') →
      dist'.length = g.order ∧ par'.length = g.order ∧
      (∀ v, v < g.order → v ≠ s → dist'.getD v 0 ≠ -1 →
        IsShortestDist g s v (dist'.getD v 0)) ∧
      (∀ v, v < g.order → v ≠ s → dist'.getD v 0 = -1 →
        par'.getD v 0 = uintMax) := by
  intro fuel
  induction fuel with
  | zero =>
    intro dist par known dist' par' inv h
    rcases hs : selectNext known dist with _ | c
    · rw [dijkstraLoop_step_none hs] at h
      cases h
    · rw [dijkstraLoop_step_some hs] at h
      rcases hmore : moreVertices g.order (known.set c.1 true)
          (relaxDist g c.1 known dist) with _ | _
      · rw [hmore] at h
        replace h : Except.ok (relaxDist g c.1 known dist,
            relaxPar g c.1 known dist par) = Except.ok (dist', par') := h
        cases h
        exact exit_correct (dijkstra_step_inv hgood inv hs) hmore
      · rw [hmore] at h
        replace h : (Except.error CGraphError.nonTermination :
            Except CGraphError (List ℚ × List Nat)) = Except.ok (dist', par') := h
        cases h
  | succ f ih =>
    intro dist par known dist' par' inv h
    rcases hs : selectNext known dist with _ | c
    · rw [dijkstraLoop_step_none hs] at h
      cases h
    · rw [dijkstraLoop_step_some hs] at h
      rcases hmore : moreVertices g.order (known.set c.1 true)
          (relaxDist g c.1 known dist) with _ | _
      · rw [hmore] at h
        replace h : Except.ok (relaxDist g c.1 known dist,
            relaxPar g c.1 known dist par) = Except.ok (dist', par') := h
        cases h
        exact exit_correct (dijkstra_step_inv hgood inv hs) hmore
      · rw [hmore] at h
        replace h : dijkstraLoop g f (relaxDist g c.1 known dist)
            (relaxPar g c.1 known dist par) (known.set c.1 true)
            = Except.ok (dist', par') := h
        exact ih _ _ _ dist' par' (dijkstra_step_inv hgood inv hs) h

/-- A parent walk that reaches an in-range vertex holding the wrapped
sentinel parent can never succeed: it steps to the sentinel index and the
next access is past the end of the parent vector (the source's out-of-bounds
read). -/
theorem parentWalk_stuck {par : List Nat} {target cur : Nat}
    (hlen : par.length ≤ uintMax) (htar : target < par.length)
    (hcur : cur < par.length) (hct : cur ≠ target)
    (hsent : par.getD cur 0 = uintMax) :
    ∀ (fuel : Nat) (acc : List Nat) (r : List Nat),
      parentWalk par target fuel cur acc ≠ .ok r := by
  intro fuel acc r h
  unfold parentWalk at h
  rw [if_neg hct] at h
  split at h
  · cases h
  · rename_i p hp
    rw [get?_eq_some_getD hcur 0, hsent] at hp
    injection hp with hp2
    cases fuel with
    | zero => cases h
    | succ f =>
      subst hp2
      unfold parentWalk at h
      rw [if_neg (show ¬uintMax = target by omega)] at h
      split at h
      · cases h
      · rename_i q hq
        rw [List.get?_eq_none.mpr (by omega)] at hq
        cases hq

/-- A successful default-preference query on a freshly constructed graph with
distinct internal endpoints runs one Dijkstra rooted at the end vertex, and
the distance it returns is the true shortest distance from the end vertex to
the start vertex. -/
theorem SD_fresh_shortest {m : List (List ℚ)} {labels : List Nat} {g : CGraph}
    (hg : CGraph.construct m labels = .ok g)
    {a b : Nat} {d : ℚ} {r : List Nat} {stq : DijkstraState} {iA iB : Nat}
    (ha : ExternalToInternal g a = some iA)
    (hb : ExternalToInternal g b = some iB)
    (hne : iA ≠ iB)
    (h : ShortestDistanceDefault g emptyState a b = .ok (d, r, stq)) :
    IsShortestDist g iB iA d := by
  have hgood : GoodGraph g := construct_good hg
  obtain ⟨-, hord, -, -, -, hext, hlab, -, -, -⟩ := construct_ok_inv hg
  have hbl : iB < labels.length ∧ labels.get? iB = some b := by
    apply buildExtMap_lookup labels b iB
    rw [← hext]
    exact hb
  have hal : iA < labels.length ∧ labels.get? iA = some a := by
    apply buildExtMap_lookup labels a iA
    rw [← hext]
    exact ha
  have hiBo : iB < g.order := by omega
  have hiAo : iA < g.order := by omega
  obtain ⟨iS, iE, rInt, ha2, hb2, hisd, -⟩ := SD_ok_inv h
  rw [ha] at ha2
  injection ha2 with ha3
  rw [hb] at hb2
  injection hb2 with hb3
  subst ha3
  subst hb3
  obtain ⟨fs, hrs, hwp⟩ := ISD_ok_inv hisd
  have hnA : lookupAssoc emptyState.startVertices iA = none := rfl
  have hnB : lookupAssoc emptyState.startVertices iB = none := rfl
  rw [rootSelect_fresh_end hnB hnA] at hrs
  rcases hID : InternalDijkstra g emptyState iB with e | p
  · rw [hID] at hrs
    cases hrs
  · rw [hID] at hrs
    replace hrs : Except.ok (false, p.2) = Except.ok (fs, stq) := hrs
    injection hrs with hrs2
    have hfs : fs = false := (congrArg Prod.fst hrs2).symm
    have hstq : stq = p.2 := (congrArg Prod.snd hrs2).symm
    rcases InternalDijkstra_ok_inv hID with ⟨hcache, -⟩ | ⟨-, dist2, par2, hloop, hidx, hst⟩
    · cases hcache
    · obtain ⟨hdl2, hpl2, hshort2, hpar2⟩ := dijkstraLoop_correct hgood
        ((dijkstraInitKnown g iB).count false) (dijkstraInitDist g iB)
        (dijkstraInitPar g iB) (dijkstraInitKnown g iB) dist2 par2
        (dijkstraInit_inv hgood hiBo) hloop
      subst hfs
      subst hstq
      rw [hst] at hwp
      obtain ⟨idx2, parVec, hlook, hor, hpw, hd⟩ := walkPhase_false_ok_inv hwp
      simp only [hidx] at hlook
      replace hlook : lookupAssoc (insertAssoc emptyState.startVertices iB
          emptyState.outputRoutes.length) iB = some idx2 := hlook
      rw [lookupAssoc_insert_self] at hlook
      injection hlook with hlook2
      replace hor : List.get? [par2] idx2 = some parVec := hor
      rw [← hlook2] at hor
      replace hor : some par2 = some parVec := hor
      injection hor with hor2
      rw [← hlook2] at hd
      replace hd : dist2.get? iA = some d := hd
      have hiAd : iA < dist2.length := by
        by_contra hge
        rw [List.get?_eq_none.mpr (by omega)] at hd
        cases hd
      rw [get?_eq_some_getD hiAd 0] at hd
      injection hd with hd2
      have hpar_ne : par2.getD iA 0 ≠ uintMax := by
        intro hsent
        refine parentWalk_stuck ?_ ?_ ?_ hne hsent (g.order + 1) [iA] rInt ?_
        · rw [hpl2, hord]
          exact construct_le_uintMax hg
        · rw [hpl2]
          exact hiBo
        · rw [hpl2]
          exact hiAo
        · rw [hor2]
          exact hpw
      have hdist_ne : dist2.getD iA 0 ≠ -1 := by
        intro hneg
        exact hpar_ne (hpar2 iA hiAo hne hneg)
      rw [← hd2]
      exact hshort2 iA hiAo hne hdist_ne

/-- Claim C8: for every graph constructed from a symmetric distance matrix
and every pair of registered labels `a`, `b`, the distance returned by
`ShortestDistance(a, b)` on the freshly constructed graph equals the distance
returned by `ShortestDistance(b, a)` on the freshly constructed graph. -/
theorem claim_C8 (m : List (List ℚ)) (labels : List Nat) (g : CGraph)
    (hg : CGraph.construct m labels = .ok g)
    (hsym : ∀ i < m.length, ∀ j < m.length, entry m i j = entry m j i)
    (a b : Nat) (d1 d2 : ℚ) (r1 r2 : List Nat) (st1 st2 : DijkstraState)
    (h1 : ShortestDistanceDefault g emptyState a b = .ok (d1, r1, st1))
    (h2 : ShortestDistanceDefault g emptyState b a = .ok (d2, r2, st2)) :
    d1 = d2 := by
  obtain ⟨iA, iB, rInt1, ha, hb, -, -⟩ := SD_ok_inv h1
  by_cases hne : iA = iB
  · -- the two internal endpoints coincide, so the labels coincide and the
    -- two queries are literally the same query
    have hext : g.externalToInternal = buildExtMap labels :=
      (construct_ok_inv hg).2.2.2.2.2.1
    have hal : iA < labels.length ∧ labels.get? iA = some a := by
      apply buildExtMap_lookup labels a iA
      rw [← hext]
      exact ha
    have hbl : iB < labels.length ∧ labels.get? iB = some b := by
      apply buildExtMap_lookup labels b iB
      rw [← hext]
      exact hb
    have hab : a = b := by
      have he1 := hal.2
      rw [hne, hbl.2] at he1
      injection he1 with he2
      exact he2.symm
    subst hab
    rw [h1] at h2
    injection h2 with h3
    rw [Prod.mk.injEq] at h3
    exact h3.1
  · have hs1 : IsShortestDist g iB iA d1 := SD_fresh_shortest hg ha hb hne h1
    have hs2 : IsShortestDist g iA iB d2 :=
      SD_fresh_shortest hg hb ha (Ne.symm hne) h2
    have hsymg : SymGraph g := construct_sym hg hsym
    exact IsShortestDist_unique hs1 (IsShortestDist_symm hsymg hs2)

/-- Claim C8, witness: the symmetric path-graph scenario with the queries
(10, 40) and (40, 10); both return distance 6. -/
theorem claim_C8_witness :
    CGraph.construct matPath4 labels4 = .ok graphPath4 ∧
    (∀ i < matPath4.length, ∀ j < matPath4.length,
      entry matPath4 i j = entry matPath4 j i) ∧
    ShortestDistanceDefault graphPath4 emptyState 10 40 =
      .ok (6, [10, 20, 30, 40], ⟨[[1, 2, 3, 3]], [[6, 5, 3, 0]], [(3, 0)]⟩) ∧
    ShortestDistanceDefault graphPath4 emptyState 40 10 =
      .ok (6, [40, 30, 20, 10], ⟨[[0, 0, 1, 2]], [[0, 1, 3, 6]], [(0, 0)]⟩) ∧
    (6 : ℚ) = 6 :=
  ⟨by decide, by decide, by decide, by decide,
    claim_C8 matPath4 labels4 graphPath4 (by decide) (by decide) 10 40 6 6
      [10, 20, 30, 40] [40, 30, 20, 10]
      ⟨[[1, 2, 3, 3]], [[6, 5, 3, 0]], [(3, 0)]⟩
      ⟨[[0, 0, 1, 2]], [[0, 1, 3, 6]], [(0, 0)]⟩ (by decide) (by decide)⟩

end Renispace
